import Mathlib

/-!
Verification of the thunder embedded relation store (github.com/longlodw/thunder).

The development shallowly embeds the storage-and-query layer: the ordered
codec, the data / index / reverse-index stores, predicate compilation to key
ranges, and the `Persistent` relation operations `Insert`, `Delete`,
`Select` and the planner `iter`.  Pure Go functions become Lean functions;
the mutable bolt buckets become explicit state (`RelState`) threaded through
the operations.  Byte strings are `List Nat`; on-disk composite index keys
`encode(keyParts ++ [rowId])` are kept in decomposed form `(keyBytes, idBytes)`,
ordered pairwise — by the codec contract the byte order of the composite
equals that pair order.
-/

set_option linter.unusedVariables false

namespace Thunder

/-- Byte strings, as produced by the order-preserving codec. -/
abbrev Bytes := List Nat

/-- Model of Go `bytes.Compare`: lexicographic byte comparison where a proper
prefix sorts before its extensions. -/
def bytesCmp : Bytes → Bytes → Ordering
  | [], [] => .eq
  | [], _ :: _ => .lt
  | _ :: _, [] => .gt
  | a :: as, b :: bs =>
    match compare a b with
    | .eq => bytesCmp as bs
    | o => o

/-- Strict byte-order comparison as a Bool. -/
def bytesLt (a b : Bytes) : Bool := bytesCmp a b == .lt

/-- Non-strict byte-order comparison as a Bool. -/
def bytesLe (a b : Bytes) : Bool := bytesCmp a b != .gt

theorem natCompare_self (x : Nat) : compare x x = Ordering.eq := by
  simp [Nat.compare_eq_eq]

theorem bytesCmp_self (a : Bytes) : bytesCmp a a = .eq := by
  induction a with
  | nil => rfl
  | cons x xs ih => simp [bytesCmp, natCompare_self, ih]

theorem bytesCmp_eq_iff : ∀ a b : Bytes, bytesCmp a b = .eq ↔ a = b := by
  intro a
  induction a with
  | nil => intro b; cases b <;> simp [bytesCmp]
  | cons x xs ih =>
    intro b
    cases b with
    | nil => simp [bytesCmp]
    | cons y ys =>
      rcases h : compare x y with hc | hc | hc
      · have hne : x ≠ y := Nat.ne_of_lt (Nat.compare_eq_lt.mp h)
        simp [bytesCmp, h, hne]
      · have hxy : x = y := Nat.compare_eq_eq.mp h
        subst hxy
        simp [bytesCmp, h, ih]
      · have hne : x ≠ y := Nat.ne_of_gt (Nat.compare_eq_gt.mp h)
        simp [bytesCmp, h, hne]

theorem bytesCmp_swap : ∀ a b : Bytes, bytesCmp b a = (bytesCmp a b).swap := by
  intro a
  induction a with
  | nil => intro b; cases b <;> rfl
  | cons x xs ih =>
    intro b
    cases b with
    | nil => rfl
    | cons y ys =>
      have hswap : compare y x = (compare x y).swap := by
        rcases Nat.lt_trichotomy x y with h | h | h
        · rw [Nat.compare_eq_lt.mpr h, Nat.compare_eq_gt.mpr h]; rfl
        · subst h; rw [natCompare_self]; rfl
        · rw [Nat.compare_eq_gt.mpr h, Nat.compare_eq_lt.mpr h]; rfl
      rcases h : compare x y with hc | hc | hc <;>
        rw [h] at hswap <;>
        simp [bytesCmp, hswap, h, Ordering.swap, ih]

theorem bytesCmp_lt_trans :
    ∀ a b c : Bytes, bytesCmp a b = .lt → bytesCmp b c = .lt → bytesCmp a c = .lt := by
  intro a
  induction a with
  | nil =>
    intro b c hab hbc
    cases b with
    | nil => cases hab
    | cons y ys =>
      cases c with
      | nil => cases hbc
      | cons z zs => rfl
  | cons x xs ih =>
    intro b c hab hbc
    cases b with
    | nil => cases hab
    | cons y ys =>
      cases c with
      | nil => cases hbc
      | cons z zs =>
        rcases hxy : compare x y with h1 | h1 | h1 <;>
          rcases hyz : compare y z with h2 | h2 | h2 <;>
          simp only [bytesCmp, hxy, hyz] at hab hbc ⊢
        · have hlt : x < z :=
            Nat.lt_trans (Nat.compare_eq_lt.mp hxy) (Nat.compare_eq_lt.mp hyz)
          simp [Nat.compare_eq_lt.mpr hlt]
        · have hy : y = z := Nat.compare_eq_eq.mp hyz
          subst hy
          simp [hxy]
        · exact absurd hbc (by simp)
        · have hx : x = y := Nat.compare_eq_eq.mp hxy
          subst hx
          simp [hyz]
        · have hx : x = y := Nat.compare_eq_eq.mp hxy
          have hy : y = z := Nat.compare_eq_eq.mp hyz
          subst hx; subst hy
          simp only [natCompare_self]
          exact ih ys zs hab hbc
        · exact absurd hbc (by simp)
        · exact absurd hab (by simp)
        · exact absurd hab (by simp)
        · exact absurd hab (by simp)

theorem bytesCmp_ne_gt_iff (a b : Bytes) :
    bytesCmp a b ≠ .gt ↔ bytesCmp a b = .lt ∨ a = b := by
  rcases h : bytesCmp a b with hc | hc | hc
  · simp
  · rw [← bytesCmp_eq_iff a b, h]
    simp
  · constructor
    · intro hx; exact absurd rfl hx
    · rintro (hx | hx)
      · cases hx
      · subst hx; rw [bytesCmp_self] at h; cases h

theorem bytesCmp_le_trans {a b c : Bytes} (hab : bytesCmp a b ≠ .gt)
    (hbc : bytesCmp b c ≠ .gt) : bytesCmp a c ≠ .gt := by
  rcases (bytesCmp_ne_gt_iff a b).mp hab with h1 | h1
  · rcases (bytesCmp_ne_gt_iff b c).mp hbc with h2 | h2
    · rw [bytesCmp_ne_gt_iff]; exact Or.inl (bytesCmp_lt_trans a b c h1 h2)
    · subst h2; rw [bytesCmp_ne_gt_iff]; exact Or.inl h1
  · subst h1; exact hbc

theorem bytesCmp_lt_of_lt_of_le {a b c : Bytes} (hab : bytesCmp a b = .lt)
    (hbc : bytesCmp b c ≠ .gt) : bytesCmp a c = .lt := by
  rcases (bytesCmp_ne_gt_iff b c).mp hbc with h2 | h2
  · exact bytesCmp_lt_trans a b c hab h2
  · subst h2; exact hab

theorem bytesCmp_lt_of_le_of_lt {a b c : Bytes} (hab : bytesCmp a b ≠ .gt)
    (hbc : bytesCmp b c = .lt) : bytesCmp a c = .lt := by
  rcases (bytesCmp_ne_gt_iff a b).mp hab with h1 | h1
  · exact bytesCmp_lt_trans a b c h1 hbc
  · subst h1; exact hbc

theorem bytesCmp_lt_irrefl (a : Bytes) : bytesCmp a a ≠ .lt := by
  rw [bytesCmp_self]; simp

/-! ### The value domain and the ordered codec

Field values are the dynamic `any` values the Go code dispatches on: integers,
strings, byte strings, flat lists (`[]any`), and `nil` (`vNil`, the zero value a
Go map read yields for an absent key; it cannot be encoded).  The order-preserving
codec (`rsc.io/ordered`, an external collaborator) is modelled from the spec:
type-tagged scalars, signed integers with negatives before non-negatives,
strings and byte strings escaped (0x00 → 0x00 0xFF) and terminated (0x00 0x01),
and `ordered.Encode(items...)` of a list as the concatenation of the element
encodings — in particular encoding a one-element list equals encoding the
element, as in the Go code. -/

inductive Val where
  | vInt (n : Int)
  | vStr (s : String)
  | vBytes (bs : Bytes)
  | vList (vs : List Val)
  | vNil

/-- Error kinds of the thunder package (the `Err…` values of the source). -/
inductive Err where
  | objectFieldCountMismatch
  | objectMissingField (col : String)
  | uniqueConstraint (idx : String)
  | indexNotFound (idx : String)
  | indexMetadataNotFound (idx : String)
  | fieldNotFoundInColumns (f : String)
  | cannotMarshal
  | cannotUnmarshal
deriving DecidableEq, Repr

/-- Digit loop for `natBytes`, structurally recursive on a fuel bound (the
value itself bounds the digit count, so the fuel never runs out). -/
def natBytesGo : Nat → Nat → Bytes
  | 0, n => [n]
  | fuel + 1, n => if n < 256 then [n] else natBytesGo fuel (n / 256) ++ [n % 256]

/-- Big-endian base-256 digits of a natural number. -/
def natBytes (n : Nat) : Bytes := natBytesGo n n

/-- Escape-and-terminate framing for string payloads: 0x00 becomes 0x00 0xFF and
the payload ends with 0x00 0x01 (spec §4.1). -/
def escTerm : Bytes → Bytes
  | [] => [0, 1]
  | 0 :: rest => 0 :: 255 :: escTerm rest
  | b :: rest => b :: escTerm rest

/-- Encoding of a non-negative integer: tag, digit count, digits. -/
def encNonneg (n : Nat) : Bytes := 0x31 :: (natBytes n).length :: natBytes n

/-- Encoding of the negative integer `-(m+1)`: a smaller tag so negatives sort
first, complemented digit count and digits so more negative sorts smaller. -/
def encNeg (m : Nat) : Bytes :=
  0x2F :: (255 - (natBytes m).length) :: (natBytes m).map (255 - ·)

/-- Modelled from the spec: scalar case of the ordered codec
(`orderedMarshaler.Marshal` delegating to `rsc.io/ordered`, which is not under
src/).  Lists and `nil` are not scalars. -/
def encScalar : Val → Except Err Bytes
  | .vInt n => if n < 0 then .ok (encNeg (-n - 1).toNat) else .ok (encNonneg n.toNat)
  | .vBytes bs => .ok (0x32 :: escTerm bs)
  | .vStr s => .ok (0x33 :: escTerm (s.data.map Char.toNat))
  | .vList _ => .error .cannotMarshal
  | .vNil => .error .cannotMarshal

/-- Modelled from the spec: `orderedMa.Marshal` — a `[]any` value encodes as
`ordered.Encode(val...)`, the concatenation of its elements' encodings; any
other value encodes as a single scalar (src/unnamed/part_000, `orderedMarshaler`). -/
def Marshal : Val → Except Err Bytes
  | .vList vs => (vs.mapM encScalar).map List.flatten
  | v => encScalar v

/-! ### Operators and key ranges -/

/-- Operator kinds (`OpEq` … `OpLe` of the source). -/
inductive OpType where
  | opEq | opNe | opGt | opLt | opGe | opLe
deriving DecidableEq, Repr

/-- A field predicate, as built by the `Eq/Ne/Gt/Lt/Ge/Le` constructors. -/
structure Op where
  field : String
  value : Val
  type : OpType

/-- Constructor `Eq(field, value)`. -/
def Op.eq (f : String) (v : Val) : Op := ⟨f, v, .opEq⟩

/-- Constructor `Ne(field, value)`. -/
def Op.ne (f : String) (v : Val) : Op := ⟨f, v, .opNe⟩

/-- Constructor `Gt(field, value)`. -/
def Op.gt (f : String) (v : Val) : Op := ⟨f, v, .opGt⟩

/-- Constructor `Lt(field, value)`. -/
def Op.lt (f : String) (v : Val) : Op := ⟨f, v, .opLt⟩

/-- Constructor `Ge(field, value)`. -/
def Op.ge (f : String) (v : Val) : Op := ⟨f, v, .opGe⟩

/-- Constructor `Le(field, value)`. -/
def Op.le (f : String) (v : Val) : Op := ⟨f, v, .opLe⟩

/-- Modelled from the spec: `keyRange` over codec-encoded bytes with endpoint
inclusivity flags (the struct is not under src/; its fields and use appear
throughout `persistent.go` and the storage files). -/
structure keyRange where
  startKey : Option Bytes := none
  endKey : Option Bytes := none
  includeStart : Bool := false
  includeEnd : Bool := false
deriving DecidableEq, Repr

/-- Modelled from the spec and src/unnamed/part_000 lines 191-197: `k` is below
the range's end, respecting `includeEnd`; an absent end is unbounded. -/
def keyRange.lessThanEnd (kr : keyRange) (k : Bytes) : Bool :=
  match kr.endKey with
  | none => true
  | some e =>
    match bytesCmp k e with
    | .lt => true
    | .eq => kr.includeEnd
    | .gt => false

/-- Modelled from the spec: `k` is above the range's start, respecting
`includeStart`; an absent start is unbounded. -/
def keyRange.geStart (kr : keyRange) (k : Bytes) : Bool :=
  match kr.startKey with
  | none => true
  | some s =>
    match bytesCmp k s with
    | .gt => true
    | .eq => kr.includeStart
    | .lt => false

/-- Modelled from the spec: `keyRange.contains(k)` — true iff `k` lies between
the endpoints respecting inclusivity on either end. -/
def keyRange.contains (kr : keyRange) (k : Bytes) : Bool :=
  kr.geStart k && kr.lessThanEnd k

/-- Modelled from the spec: intersection of two key ranges (the larger start and
the smaller end win; equal endpoints conjoin their inclusivity). -/
def rangeIntersect (a b : keyRange) : keyRange :=
  let s : Option Bytes × Bool :=
    match a.startKey, b.startKey with
    | none, _ => (b.startKey, b.includeStart)
    | _, none => (a.startKey, a.includeStart)
    | some x, some y =>
      match bytesCmp x y with
      | .lt => (some y, b.includeStart)
      | .gt => (some x, a.includeStart)
      | .eq => (some x, a.includeStart && b.includeStart)
  let e : Option Bytes × Bool :=
    match a.endKey, b.endKey with
    | none, _ => (b.endKey, b.includeEnd)
    | _, none => (a.endKey, a.includeEnd)
    | some x, some y =>
      match bytesCmp x y with
      | .lt => (some x, a.includeEnd)
      | .gt => (some y, b.includeEnd)
      | .eq => (some x, a.includeEnd && b.includeEnd)
  ⟨s.1, e.1, s.2, e.2⟩

/-- Modelled from the spec: the single per-operator range — `Eq` is `[v,v]`,
`Gt` is `(v,+inf)`, `Ge` is `[v,+inf)`, `Lt` is `(-inf,v)`, `Le` is `(-inf,v]`,
and `Ne` is the full range, deferred to residual filtering. -/
def opRange (t : OpType) (v : Bytes) : keyRange :=
  match t with
  | .opEq => ⟨some v, some v, true, true⟩
  | .opGt => ⟨some v, none, false, false⟩
  | .opGe => ⟨some v, none, true, false⟩
  | .opLt => ⟨none, some v, false, false⟩
  | .opLe => ⟨none, some v, false, true⟩
  | .opNe => ⟨none, none, false, false⟩

/-- The per-field range map of the planner, in first-occurrence order (the Go
map iteration order is arbitrary; a list fixes a deterministic stand-in). -/
abbrev Ranges := List (String × keyRange)

/-- Intersect a new per-operator range into the map, initializing an unseen
field from the full range. -/
def rangesUpdate (rs : Ranges) (f : String) (r : keyRange) : Ranges :=
  match rs with
  | [] => [(f, r)]
  | (g, r0) :: rest =>
    if g = f then (g, rangeIntersect r0 r) :: rest
    else (g, r0) :: rangesUpdate rest f r

/-- Fold of `toRanges` over the operator list. -/
def toRangesGo (rs : Ranges) : List Op → Except Err Ranges
  | [] => .ok rs
  | o :: ops =>
    match Marshal o.value with
    | .error e => .error e
    | .ok v => toRangesGo (rangesUpdate rs o.field (opRange o.type v)) ops

/-- Modelled from the spec: `toRanges(ops…)` — encode each operator's value and
intersect its range into the per-field map (the function is not under src/). -/
def toRanges (ops : List Op) : Except Err Ranges :=
  toRangesGo [] ops

/-- Model of Go `slices.MinFunc` with accumulator: keep the current minimum,
replace it only on strictly smaller, so ties go to the earliest element. -/
def minFunc (cmp : α → α → Ordering) (m : α) : List α → α
  | [] => m
  | x :: xs => minFunc cmp (if cmp x m == .lt then x else m) xs

/-! ### Rows and relation state

A row is an association list from column name to value (`map[string]any`; Go
map iteration order is arbitrary, a list fixes a deterministic stand-in).
`RelState` is the bolt-backed state of one relation: the data bucket (row id
bytes to row, sorted by key), one index bucket per declared index (composite
keys kept decomposed as `(keyBytes, idBytes)` pairs, sorted pairwise), the
reverse-index bucket, and the bucket's auto-increment sequence.  The value
codec (`maUn`) is an external collaborator whose round trip the spec assumes,
so data and reverse-index payloads are stored unserialized. -/

abbrev Row := List (String × Val)

/-- The `entry` struct of `dataStorage`: row id bytes and the row value. -/
structure entry where
  id : Bytes
  value : Row

/-- State of one relation's three stores plus the data bucket's sequence. -/
structure RelState where
  seq : Nat
  dataB : List (Bytes × Row)
  indexB : List (String × List (Bytes × Bytes))
  reverseB : List (Bytes × List (String × (Bytes × Bytes)))

/-- The schema part of `Persistent` (maps become association lists in a fixed
iteration order). -/
structure Schema where
  columns : List String
  indexesMeta : List (String × List String)
  uniquesMeta : List (String × List String)
  allIndexes : List String
  relation : String

/-- Strict order on decomposed composite index keys: byte order on the key
part, then on the row-id part — the byte order of the encoded composite. -/
def pairCmp (p q : Bytes × Bytes) : Ordering :=
  match bytesCmp p.1 q.1 with
  | .eq => bytesCmp p.2 q.2
  | o => o

/-- B-tree `Put` into a key-sorted bucket: insert or replace. -/
def putSorted (k : Bytes) (v : α) : List (Bytes × α) → List (Bytes × α)
  | [] => [(k, v)]
  | (k0, v0) :: rest =>
    match bytesCmp k k0 with
    | .lt => (k, v) :: (k0, v0) :: rest
    | .eq => (k, v) :: rest
    | .gt => (k0, v0) :: putSorted k v rest

/-- B-tree `Put` of a composite index key (empty value) into a sorted index
bucket; a re-put of a present key is a no-op. -/
def putPair (p : Bytes × Bytes) : List (Bytes × Bytes) → List (Bytes × Bytes)
  | [] => [p]
  | q :: rest =>
    match pairCmp p q with
    | .lt => p :: q :: rest
    | .eq => q :: rest
    | .gt => q :: putPair p rest

/-- Update the bucket of one index by name, leaving other buckets alone. -/
def bucketsUpdate (name : String)
    (f : List (Bytes × Bytes) → List (Bytes × Bytes)) :
    List (String × List (Bytes × Bytes)) → List (String × List (Bytes × Bytes))
  | [] => []
  | (n, b) :: rest =>
    if n = name then (n, f b) :: rest else (n, b) :: bucketsUpdate name f rest

/-- Row-id encoding: `orderedMa.Marshal` of the `uint64` sequence value. -/
def idEnc (n : Nat) : Bytes := encNonneg n

/-- `dataStorage.insert` (src/unnamed/part_001): allocate the next sequence
value, encode it, store the row under it. -/
def dataInsert (st : RelState) (obj : Row) : Bytes × RelState :=
  let id := st.seq + 1
  let idBytes := idEnc id
  (idBytes, { st with seq := id, dataB := putSorted idBytes obj st.dataB })

/-- Cursor positioning of `dataStorage.get`: `Seek(startKey)` (or `First`),
then one unconditional `Next` when the start is exclusive. -/
def seekPos (kr : keyRange) (bucket : List (Bytes × α)) : List (Bytes × α) :=
  let pos :=
    match kr.startKey with
    | some s => bucket.dropWhile (fun e => bytesLt e.1 s)
    | none => bucket
  if kr.includeStart then pos else pos.drop 1

/-- `dataStorage.get` (src/unnamed/part_001 lines 59-97): scan from the seek
position while below the range end, skipping entries the range does not
contain. -/
def dataGet (kr : keyRange) (bucket : List (Bytes × Row)) : List (Bytes × Row) :=
  ((seekPos kr bucket).takeWhile (fun e => kr.lessThanEnd e.1)).filter
    (fun e => kr.contains e.1)

/-- `dataStorage.delete`: remove the entry, idempotently. -/
def dataDelete (st : RelState) (id : Bytes) : RelState :=
  { st with dataB := st.dataB.filter (fun e => e.1 ≠ id) }

/-- Go map read `obj[kf]`: the value, or the zero value `nil` when absent. -/
def keyPartsOf (obj : Row) (keyFields : List String) : List Val :=
  keyFields.map (fun kf => (obj.lookup kf).getD .vNil)

/-- Modelled from the spec: `indexStorage.insert(indexName, keyParts, idBytes)`
— store the composite key `encode(keyParts ++ [idBytes])` with an empty value
and return the stored key bytes (the 3-argument store called by
`persistent.go` is not under src/; src/unnamed/part_000 holds an older
locator-based variant).  The composite is kept decomposed as a pair. -/
def idxInsert (st : RelState) (name : String) (keyParts : List Val)
    (idBytes : Bytes) : Except Err ((Bytes × Bytes) × RelState) :=
  match st.indexB.lookup name with
  | none => .error (.indexNotFound name)
  | some _ =>
    match Marshal (.vList keyParts) with
    | .error e => .error e
    | .ok keyBytes =>
      let fieldv := (keyBytes, idBytes)
      .ok (fieldv, { st with indexB := bucketsUpdate name (putPair fieldv) st.indexB })

/-- Modelled from the spec: `indexStorage.delete` removes the exact stored
entry recorded in the reverse index (`keyParts` is recomputed by the caller
but the deletion is by exact key). -/
def idxDelete (st : RelState) (name : String) (keyParts : List Val)
    (fieldv : Bytes × Bytes) : Except Err RelState :=
  match st.indexB.lookup name with
  | none => .error (.indexNotFound name)
  | some _ =>
    .ok { st with indexB := bucketsUpdate name (List.filter (· ≠ fieldv)) st.indexB }

/-- Seek of the index scan: `Seek(encode([startKey]))` positions at the first
composite whose key component is at least the start key. -/
def idxSeek (kr : keyRange) (bucket : List (Bytes × Bytes)) : List (Bytes × Bytes) :=
  match kr.startKey with
  | some s => bucket.dropWhile (fun e => bytesLt e.1 s)
  | none => bucket

/-- Scan loop of `indexStorage.get` (structure of src/unnamed/part_000 lines
199-258): yield the row id of each entry the range contains; on a
non-contained entry stop if it is past the range end, else skip it. -/
def idxScan (kr : keyRange) : List (Bytes × Bytes) → List Bytes
  | [] => []
  | (k, id) :: rest =>
    if kr.contains k then id :: idxScan kr rest
    else if kr.lessThanEnd k then idxScan kr rest
    else []

/-- Modelled from the spec: `indexStorage.get(indexName, range)` for the
3-argument store — scan the index bucket over the range and yield the
trailing row-id components. -/
def idxGet (st : RelState) (name : String) (kr : keyRange) : Except Err (List Bytes) :=
  match st.indexB.lookup name with
  | none => .error (.indexNotFound name)
  | some bucket => .ok (idxScan kr (idxSeek kr bucket))

/-- Modelled from the spec: `reverseIndexStorage.insert` — store the map
`indexName → stored index key` under the row id. -/
def revInsert (st : RelState) (id : Bytes)
    (m : List (String × (Bytes × Bytes))) : RelState :=
  { st with reverseB := putSorted id m st.reverseB }

/-- Modelled from the spec: `reverseIndexStorage.get`; an absent row id yields
the empty map. -/
def revGet (st : RelState) (id : Bytes) : List (String × (Bytes × Bytes)) :=
  (st.reverseB.lookup id).getD []

/-- Modelled from the spec: `reverseIndexStorage.delete`, idempotent. -/
def revDelete (st : RelState) (id : Bytes) : RelState :=
  { st with reverseB := st.reverseB.filter (fun e => e.1 ≠ id) }

/-- Fresh relation state as `CreatePersistent` builds it: empty data and
reverse buckets, one empty index bucket per declared index (`newIndex`,
src/unnamed/part_000 lines 99-118). -/
def initState (pr : Schema) : RelState :=
  { seq := 0
    dataB := []
    reverseB := []
    indexB := (pr.indexesMeta ++ pr.uniquesMeta).map (fun m => (m.1, [])) }

/-! ### The Persistent relation: matchOps, Insert, Delete, iter, Select

Translated from src/persistent.go.  Go map iterations become list folds in
the declaration order of the corresponding association lists. -/

/-- Tuple rebuild inside `matchOps`: the values of an index's key columns,
failing on a missing column (`persistent.go` lines 249-256 and 259-266). -/
def colsParts (value : Row) : List String → Except Err (List Val)
  | [] => .ok []
  | c :: cs =>
    match value.lookup c with
    | none => .error (.objectMissingField c)
    | some v =>
      match colsParts value cs with
      | .error e => .error e
      | .ok parts => .ok (v :: parts)

/-- First loop of `matchOps` (lines 239-271): for every range name other than
`skip` that is not a field of the row, rebuild the composite tuple from the
index's key columns, or fail with `FieldNotFoundInColumns`. -/
def buildComposite (pr : Schema) (value : Row) (skip : String) :
    Ranges → Except Err (List (String × Val))
  | [] => .ok []
  | (k, _) :: rest =>
    if k = skip then buildComposite pr value skip rest
    else if (value.lookup k).isSome then buildComposite pr value skip rest
    else
      match pr.indexesMeta.lookup k with
      | some cols =>
        match colsParts value cols with
        | .error e => .error e
        | .ok parts =>
          match buildComposite pr value skip rest with
          | .error e => .error e
          | .ok comp => .ok ((k, Val.vList parts) :: comp)
      | none =>
        match pr.uniquesMeta.lookup k with
        | some cols =>
          match colsParts value cols with
          | .error e => .error e
          | .ok parts =>
            match buildComposite pr value skip rest with
            | .error e => .error e
            | .ok comp => .ok ((k, Val.vList parts) :: comp)
        | none => .error (.fieldNotFoundInColumns k)

/-- Second loop of `matchOps` (lines 272-289): marshal each range's value —
the rebuilt composite if one was built, else the row field — and test it
against the range. -/
def matchLoop (value : Row) (comp : List (String × Val)) (skip : String) :
    Ranges → Except Err Bool
  | [] => .ok true
  | (name, r) :: rest =>
    if name = skip then matchLoop value comp skip rest
    else
      match (comp.lookup name).orElse (fun _ => value.lookup name) with
      | none => .error (.fieldNotFoundInColumns name)
      | some v =>
        match Marshal v with
        | .error e => .error e
        | .ok vBytes =>
          if r.contains vBytes then matchLoop value comp skip rest
          else .ok false

/-- `Persistent.matchOps` (src/persistent.go lines 238-291). -/
def matchOps (pr : Schema) (value : Row) (keyRanges : Ranges) (skip : String) :
    Except Err Bool :=
  match buildComposite pr value skip keyRanges with
  | .error e => .error e
  | .ok comp => matchLoop value comp skip keyRanges

/-- Unique probe of `Insert` (lines 35-52): for each unique index build the
equality range on its key tuple and fail with `UniqueConstraint` if the index
scan yields anything. -/
def probeUniques (st : RelState) (obj : Row) :
    List (String × List String) → Except Err Unit
  | [] => .ok ()
  | (u, keyFields) :: rest =>
    let kp := keyPartsOf obj keyFields
    match toRanges [Op.eq u (.vList kp)] with
    | .error e => .error e
    | .ok rs =>
      let r := (rs.lookup u).getD {}
      match idxGet st u r with
      | .error e => .error e
      | .ok [] => probeUniques st obj rest
      | .ok (_ :: _) => .error (.uniqueConstraint u)

/-- Replace-or-append into the in-memory `revIdx` map built during `Insert`. -/
def assocReplace (l : List (String × α)) (k : String) (v : α) : List (String × α) :=
  match l with
  | [] => [(k, v)]
  | (k0, v0) :: rest =>
    if k0 = k then (k, v) :: rest else (k0, v0) :: assocReplace rest k v

/-- Index-update loops of `Insert` (lines 55-77): insert one index entry per
declared index, recording the stored key bytes; an error returns the state
mutated so far. -/
def insertIdxLoop (st : RelState) (idBytes : Bytes) (obj : Row)
    (rev : List (String × (Bytes × Bytes))) :
    List (String × List String) →
      Except Err (List (String × (Bytes × Bytes))) × RelState
  | [] => (.ok rev, st)
  | (n, keyFields) :: rest =>
    match idxInsert st n (keyPartsOf obj keyFields) idBytes with
    | .error e => (.error e, st)
    | .ok (fieldv, st1) =>
      insertIdxLoop st1 idBytes obj (assocReplace rev n fieldv) rest

/-- `Persistent.Insert` (src/persistent.go lines 21-82): validate the field
count and presence of every column, insert the row into the data store,
probe the unique indexes, insert the index entries (indexed then unique
metadata), then write the reverse-index record.  The returned state reflects
every write performed before an error. -/
def Insert (pr : Schema) (st : RelState) (obj : Row) : Except Err Unit × RelState :=
  if obj.length ≠ pr.columns.length then (.error .objectFieldCountMismatch, st)
  else
    match pr.columns.find? (fun c => (obj.lookup c).isNone) with
    | some c => (.error (.objectMissingField c), st)
    | none =>
      let r := dataInsert st obj
      let idBytes := r.1
      let st1 := r.2
      match probeUniques st1 obj pr.uniquesMeta with
      | .error e => (.error e, st1)
      | .ok _ =>
        match insertIdxLoop st1 idBytes obj [] pr.indexesMeta with
        | (.error e, st2) => (.error e, st2)
        | (.ok rev1, st2) =>
          match insertIdxLoop st2 idBytes obj rev1 pr.uniquesMeta with
          | (.error e, st3) => (.error e, st3)
          | (.ok rev2, st3) => (.ok (), revInsert st3 idBytes rev2)

/-- The full range `iter` passes to a full scan (lines 162-165). -/
def fullRange : keyRange :=
  { startKey := none, endKey := none, includeStart := true, includeEnd := true }

/-- The singleton range `iter` uses to fetch one row by id (lines 203-208). -/
def singleRange (id : Bytes) : keyRange :=
  { startKey := some id, endKey := some id, includeStart := true, includeEnd := true }

/-- Body of both scan loops of `iter`: run `matchOps` on each fetched row,
yielding the error, the entry, or nothing. -/
def scanFilter (pr : Schema) (ranges : Ranges) (skip : String)
    (entries : List (Bytes × Row)) : List (Except Err entry) :=
  entries.flatMap (fun e =>
    match matchOps pr e.2 ranges skip with
    | .error err => [.error err]
    | .ok true => [.ok ⟨e.1, e.2⟩]
    | .ok false => [])

/-- The declared indexes mentioned by the compiled ranges, in `allIndexes`
iteration order (lines 154-159). -/
def selectedIdxs (pr : Schema) (ranges : Ranges) : List String :=
  pr.allIndexes.filter (fun n => (ranges.lookup n).isSome)

/-- The planner's index choice (lines 190-194): `slices.MinFunc` over the
mentioned indexes comparing `distance()` by byte order.  `distance` itself is
modelled from the spec as an abstract parameter: a byte-string selectivity
estimate compared by byte order (its computation is not under src/). -/
def chooseIdx (dist : keyRange → Bytes) (ranges : Ranges) (c : String)
    (rest : List String) : String :=
  minFunc (fun a b =>
    bytesCmp (dist ((ranges.lookup a).getD {})) (dist ((ranges.lookup b).getD {})))
    c rest

/-- Index-scan path of `iter` (lines 200-235): for each row id from the index
scan, fetch the row by its singleton range and residual-filter with the
chosen index skipped. -/
def indexPath (pr : Schema) (st : RelState) (ranges : Ranges) (chosen : String)
    (ids : List Bytes) : List (Except Err entry) :=
  ids.flatMap (fun id => scanFilter pr ranges chosen (dataGet (singleRange id) st.dataB))

/-- `Persistent.iter` (src/persistent.go lines 149-236): compile the ranges,
full-scan when no declared index is mentioned, else scan the index with the
byte-lexicographically smallest distance and residual-filter the rest.  The
result is the sequence of `(entry, error)` yields. -/
def iter (dist : keyRange → Bytes) (pr : Schema) (st : RelState) (ops : List Op) :
    Except Err (List (Except Err entry)) :=
  match toRanges ops with
  | .error e => .error e
  | .ok ranges =>
    match selectedIdxs pr ranges with
    | [] => .ok (scanFilter pr ranges "" (dataGet fullRange st.dataB))
    | c :: rest =>
      let chosen := chooseIdx dist ranges c rest
      let r := (ranges.lookup chosen).getD {}
      match idxGet st chosen r with
      | .error e => .error e
      | .ok ids => .ok (indexPath pr st ranges chosen ids)

/-- `Persistent.Select` (lines 122-135): `iter` with entries projected to
their row values. -/
def Select (dist : keyRange → Bytes) (pr : Schema) (st : RelState) (ops : List Op) :
    Except Err (List (Except Err Row)) :=
  match iter dist pr st ops with
  | .error e => .error e
  | .ok l =>
    .ok (l.map (fun x =>
      match x with
      | .error e => .error e
      | .ok en => .ok en.value))

/-- Per-row index cleanup of `Delete` (lines 98-110): for each reverse-index
record look the index up in `indexesMeta` only — `IndexMetadataNotFound`
otherwise — and delete the recorded entry.  Errors return the state mutated
so far. -/
def deleteIdxLoop (pr : Schema) (st : RelState) (e : entry) :
    List (String × (Bytes × Bytes)) → Except Err Unit × RelState
  | [] => (.ok (), st)
  | (idxName, fieldv) :: rest =>
    match pr.indexesMeta.lookup idxName with
    | none => (.error (.indexMetadataNotFound idxName), st)
    | some keyFields =>
      match idxDelete st idxName (keyPartsOf e.value keyFields) fieldv with
      | .error er => (.error er, st)
      | .ok st1 => deleteIdxLoop pr st1 e rest

/-- Deletion of one matched row (lines 93-117): index entries via the reverse
index, then the reverse-index record, then the data entry. -/
def deleteEntry (pr : Schema) (st : RelState) (e : entry) :
    Except Err Unit × RelState :=
  let rev := revGet st e.id
  match deleteIdxLoop pr st e rev with
  | (.error er, st1) => (.error er, st1)
  | (.ok _, st1) =>
    let st2 := revDelete st1 e.id
    (.ok (), dataDelete st2 e.id)

/-- Loop of `Delete` over the matched entries; a yielded iteration error
aborts. -/
def deleteLoop (pr : Schema) (st : RelState) :
    List (Except Err entry) → Except Err Unit × RelState
  | [] => (.ok (), st)
  | .error er :: _ => (.error er, st)
  | .ok e :: rest =>
    match deleteEntry pr st e with
    | (.error er, st1) => (.error er, st1)
    | (.ok _, st1) => deleteLoop pr st1 rest

/-- `Persistent.Delete` (src/persistent.go lines 84-120).  The matched
entries are materialized against the pre-state, then deleted in order (the
Go iterator is a cursor over the live transaction; for the single-row
scenarios settled here the two agree). -/
def Delete (dist : keyRange → Bytes) (pr : Schema) (st : RelState) (ops : List Op) :
    Except Err Unit × RelState :=
  match iter dist pr st ops with
  | .error er => (.error er, st)
  | .ok entries => deleteLoop pr st entries

/-! ### The locator-based index store of src/unnamed/part_000

This older `indexStorage` stores each entry as `Marshal([]any{key, id})` where
`key` is an already-encoded byte string and `id` the `uint64` row id: every
well-formed stored key decodes to exactly two components.  Its `get`
(lines 167-260) decodes raw stored keys, type-checks the two components, and
scans with the same skip/stop logic. -/

/-- Undo the escape-and-terminate framing: the payload up to the terminator
and the remaining bytes. -/
def unesc : Bytes → Option (Bytes × Bytes)
  | 0 :: 1 :: rest => some ([], rest)
  | 0 :: 255 :: rest => (unesc rest).map (fun p => (0 :: p.1, p.2))
  | 0 :: _ => none
  | [] => none
  | b :: rest => (unesc rest).map (fun p => (b :: p.1, p.2))

/-- Value of big-endian base-256 digits. -/
def fromDigits (l : Bytes) : Nat := l.foldl (fun acc d => acc * 256 + d) 0

/-- Decode one codec component from the head of a byte string. -/
def decodeComp : Bytes → Option (Val × Bytes)
  | 0x31 :: len :: rest =>
    if len ≤ rest.length then
      some (.vInt (fromDigits (rest.take len)), rest.drop len)
    else none
  | 0x2F :: lb :: rest =>
    let len := 255 - lb
    if len ≤ rest.length then
      some (.vInt (-(fromDigits ((rest.take len).map (255 - ·)) + 1)), rest.drop len)
    else none
  | 0x32 :: rest => (unesc rest).map (fun p => (.vBytes p.1, p.2))
  | 0x33 :: rest =>
    (unesc rest).map (fun p => (.vStr (String.mk (p.1.map Char.ofNat)), p.2))
  | _ => none

/-- Fuel-driven component loop of `orderedMa.Unmarshal` (each component
consumes at least one byte, so the input length bounds the count). -/
def decodeValsFuel : Nat → Bytes → Option (List Val)
  | _, [] => some []
  | 0, _ :: _ => none
  | fuel + 1, b :: bs =>
    match decodeComp (b :: bs) with
    | none => none
    | some (v, rest) => (decodeValsFuel fuel rest).map (v :: ·)

/-- Modelled from the spec: `orderedMa.Unmarshal(k, &parts)` — decode a stored
key into its typed components. -/
def decodeVals (bs : Bytes) : Option (List Val) := decodeValsFuel bs.length bs

/-- The `parts[0]` type switch of the old `get` (lines 212-220): a byte-string
or string component, else skip. -/
def partAsBytes : Val → Option Bytes
  | .vBytes b => some b
  | .vStr s => some (s.data.map Char.toNat)
  | _ => none

/-- The `parts[1]` type switch (lines 224-234): an integer component taken as
`uint64`, else skip. -/
def partAsId : Val → Option Nat
  | .vInt n => some ((n % (2 ^ 64)).toNat)
  | _ => none

/-- Scan loop of the locator-based `indexStorage.get` (src/unnamed/part_000
lines 199-258): decode each raw stored key — a failed decode yields the
error; a component count other than two or an ill-typed component skips the
key; a contained key component yields the id; a key component past the range
end stops. -/
def idxScanRaw (kr : keyRange) : List Bytes → List (Except Err Nat)
  | [] => []
  | key :: rest =>
    match decodeVals key with
    | none => .error .cannotUnmarshal :: idxScanRaw kr rest
    | some parts =>
      match parts with
      | [p0, p1] =>
        match partAsBytes p0 with
        | none => idxScanRaw kr rest
        | some valBytes =>
          match partAsId p1 with
          | none => idxScanRaw kr rest
          | some id =>
            if kr.contains valBytes then .ok id :: idxScanRaw kr rest
            else if kr.lessThanEnd valBytes then idxScanRaw kr rest
            else []
      | _ => idxScanRaw kr rest

/-- The locator-based `indexStorage.get` over one raw index bucket: seek to
`Marshal([]any{startKey})` when a start key is given, then scan. -/
def idxGetRaw (kr : keyRange) (bucket : List Bytes) : List (Except Err Nat) :=
  match kr.startKey with
  | none => idxScanRaw kr bucket
  | some s =>
    match Marshal (.vList [.vBytes s]) with
    | .error e => [.error e]
    | .ok pre => idxScanRaw kr (bucket.dropWhile (fun k => bytesLt k pre))

/-! ### Consumer-driven runs of the iterators

The Go iterators are push generators over a `yield` callback returning a
continuation Bool.  For the stop-signal claim the generator bodies are
re-run against an explicit consumer `f`, collecting the exact sequence of
calls made to it. -/

/-- Loop of `dataStorage.get` against a consumer: the list of calls made. -/
def dataGetRunGo (kr : keyRange) (f : Bytes × Row → Bool) :
    List (Bytes × Row) → List (Bytes × Row)
  | [] => []
  | e :: rest =>
    if kr.lessThanEnd e.1 then
      if kr.contains e.1 then
        if f e then e :: dataGetRunGo kr f rest else [e]
      else dataGetRunGo kr f rest
    else []

/-- `dataStorage.get` against a consumer: seek, then the scan loop. -/
def dataGetRun (kr : keyRange) (f : Bytes × Row → Bool)
    (bucket : List (Bytes × Row)) : List (Bytes × Row) :=
  dataGetRunGo kr f (seekPos kr bucket)

/-- One scan-filter loop of `iter` against a consumer: the calls made, and
whether the consumer stopped the iteration. -/
def scanFilterRun (pr : Schema) (ranges : Ranges) (skip : String)
    (f : Except Err entry → Bool) :
    List (Bytes × Row) → List (Except Err entry) × Bool
  | [] => ([], false)
  | e :: rest =>
    match matchOps pr e.2 ranges skip with
    | .error err =>
      if f (.error err) then
        let r := scanFilterRun pr ranges skip f rest
        (.error err :: r.1, r.2)
      else ([.error err], true)
    | .ok true =>
      if f (.ok ⟨e.1, e.2⟩) then
        let r := scanFilterRun pr ranges skip f rest
        (.ok ⟨e.1, e.2⟩ :: r.1, r.2)
      else ([.ok ⟨e.1, e.2⟩], true)
    | .ok false => scanFilterRun pr ranges skip f rest

/-- Index path of `iter` against a consumer: a stop inside the inner row
fetch returns from the outer loop as well. -/
def indexPathRun (pr : Schema) (st : RelState) (ranges : Ranges) (chosen : String)
    (f : Except Err entry → Bool) : List Bytes → List (Except Err entry)
  | [] => []
  | id :: rest =>
    match scanFilterRun pr ranges chosen f (dataGet (singleRange id) st.dataB) with
    | (calls, true) => calls
    | (calls, false) => calls ++ indexPathRun pr st ranges chosen f rest

/-- `Persistent.iter` against a consumer: the calls made to its yield
callback (an error before the first yield makes none). -/
def iterCalls (dist : keyRange → Bytes) (pr : Schema) (st : RelState)
    (ops : List Op) (f : Except Err entry → Bool) : List (Except Err entry) :=
  match toRanges ops with
  | .error _ => []
  | .ok ranges =>
    match selectedIdxs pr ranges with
    | [] => (scanFilterRun pr ranges "" f (dataGet fullRange st.dataB)).1
    | c :: rest =>
      let chosen := chooseIdx dist ranges c rest
      let r := (ranges.lookup chosen).getD {}
      match idxGet st chosen r with
      | .error _ => []
      | .ok ids => indexPathRun pr st ranges chosen f ids

/-- Projection of an iter yield to a Select yield. -/
def toRowYield : Except Err entry → Except Err Row
  | .error e => .error e
  | .ok en => .ok en.value

/-- `Persistent.Select` against a consumer `g`: `Select` adapts `g` into the
yield callback it hands to `iter`, so its calls are the projected iter
calls. -/
def selectCalls (dist : keyRange → Bytes) (pr : Schema) (st : RelState)
    (ops : List Op) (g : Except Err Row → Bool) : List (Except Err Row) :=
  (iterCalls dist pr st ops (fun x => g (toRowYield x))).map toRowYield

/-- The stop-signal property: every call to the consumer, except possibly the
last one, returned `true` — once the consumer answers `false` no further
call is made. -/
def StopsAfterFalse (f : α → Bool) (calls : List α) : Prop :=
  calls.dropLast.all f = true

/-! ### Well-formedness

Executable well-formedness of a schema and of a relation state: what
`CreatePersistent` establishes and `Insert`/`Delete` maintain.  All
quantifiers are over list members, so both predicates are decidable by
evaluation. -/

/-- Pairwise relation over a list, as a Bool. -/
def pairwiseB (r : α → α → Bool) : List α → Bool
  | [] => true
  | x :: xs => xs.all (r x) && pairwiseB r xs

/-- All elements distinct. -/
def distinctB (l : List String) : Bool := pairwiseB (fun a b => a != b) l

/-- Index metadata of a name: the indexed metadata first, then the uniques —
the lookup order of `matchOps`. -/
def metaLookup (pr : Schema) (n : String) : Option (List String) :=
  (pr.indexesMeta.lookup n).orElse (fun _ => pr.uniquesMeta.lookup n)

/-- Schema well-formedness: distinct columns, distinct index names shared by
no two metadata maps, `allIndexes` listing declared indexes only, key columns
drawn from the declared columns, and an index named after a column keyed by
exactly that column. -/
def schemaWF (pr : Schema) : Bool :=
  distinctB pr.columns &&
  distinctB ((pr.indexesMeta ++ pr.uniquesMeta).map (fun m => m.1)) &&
  distinctB pr.allIndexes &&
  pr.allIndexes.all (fun n => (metaLookup pr n).isSome) &&
  (pr.indexesMeta ++ pr.uniquesMeta).all (fun m =>
    m.2.all (fun c => pr.columns.contains c) &&
    (!(pr.columns.contains m.1) || m.2 == [m.1]))

/-- Is an exceptional computation successful? -/
def isOkB : Except Err α → Bool
  | .ok _ => true
  | .error _ => false

/-- A stored row is well-formed: distinct fields, exactly the declared
columns, every value a codec-encodable scalar. -/
def rowOk (pr : Schema) (r : Row) : Bool :=
  distinctB (r.map (fun p => p.1)) &&
  pr.columns.all (fun c => (r.lookup c).isSome) &&
  r.all (fun p => pr.columns.contains p.1) &&
  r.all (fun p => isOkB (encScalar p.2))

/-- The index key bytes of a row under an index's key columns (total form;
well-formed rows never hit the error default). -/
def encKeyD (cols : List String) (r : Row) : Bytes :=
  match Marshal (.vList (keyPartsOf r cols)) with
  | .ok b => b
  | .error _ => []

/-- Strict pair order as a Bool. -/
def pairLtB (p q : Bytes × Bytes) : Bool := pairCmp p q == .lt

/-- The stored bucket of an index, empty if the bucket is missing. -/
def bucketOf (st : RelState) (n : String) : List (Bytes × Bytes) :=
  (st.indexB.lookup n).getD []

/-- One index bucket is well-formed: present, sorted in composite order, and
holding exactly one entry `(keyOf(row), rowId)` per data row. -/
def bucketOk (dataB : List (Bytes × Row)) (st : RelState)
    (m : String × List String) : Bool :=
  match st.indexB.lookup m.1 with
  | none => false
  | some bucket =>
    pairwiseB pairLtB bucket &&
    bucket.all (fun p => dataB.any (fun e => p.1 == encKeyD m.2 e.2 && p.2 == e.1)) &&
    dataB.all (fun e => decide ((encKeyD m.2 e.2, e.1) ∈ bucket))

/-- Relation-state well-formedness: data bucket sorted by id bytes, every
stored row well-formed, and every declared index bucket consistent with the
data bucket. -/
def stateOk (pr : Schema) (st : RelState) : Bool :=
  pairwiseB (fun a b => bytesLt a.1 b.1) st.dataB &&
  st.dataB.all (fun e => rowOk pr e.2) &&
  (pr.indexesMeta ++ pr.uniquesMeta).all (bucketOk st.dataB st)

/-! ### Concrete fixtures

A relation with a unique column (scenario 2 of the spec), a single-column
relation without indexes, and an indexed two-column relation, with the states
a few inserts produce. -/

/-- Relation `users(id, email)` with `email` unique (and not otherwise
indexed). -/
def usersSchema : Schema :=
  ⟨["id", "email"], [], [("email", ["email"])], ["email"], "users"⟩

/-- A concrete distance function for instantiating the planner. -/
def distZero : keyRange → Bytes := fun _ => []

/-- Row `(id "1", email "a@x")`. -/
def rowA : Row := [("id", .vStr "1"), ("email", .vStr "a@x")]

/-- Row `(id "2", email "a@x")`: same email, different id. -/
def rowB : Row := [("id", .vStr "2"), ("email", .vStr "a@x")]

/-- The users relation after inserting `rowA`. -/
def usersSt1 : RelState := (Insert usersSchema (initState usersSchema) rowA).2

/-- Relation `t(f)` with no indexes. -/
def neSchema : Schema := ⟨["f"], [], [], [], "t"⟩

/-- The no-index relation holding the single row `f = 1`. -/
def neSt : RelState := (Insert neSchema (initState neSchema) [("f", .vInt 1)]).2

/-! ### Scan-window lemmas

A B-tree cursor scan (seek, iterate, stop past the range end) computes a
plain filter on a sorted bucket: the prefix the seek discards is below the
range, and everything after the stop point is above it. -/

theorem bytesLt_iff (a b : Bytes) : bytesLt a b = true ↔ bytesCmp a b = .lt := by
  unfold bytesLt
  cases bytesCmp a b <;> simp <;> decide

theorem bytesCmp_gt_of_lt {a b : Bytes} (h : bytesCmp a b = .lt) :
    bytesCmp b a = .gt := by
  rw [bytesCmp_swap a b, h]
  rfl

theorem bytesCmp_lt_of_gt {a b : Bytes} (h : bytesCmp a b = .gt) :
    bytesCmp b a = .lt := by
  rw [bytesCmp_swap a b, h]
  rfl

theorem filter_dropWhile_of_imp (p q : α → Bool) (l : List α)
    (h : ∀ x ∈ l, q x = true → p x = false) :
    (l.dropWhile q).filter p = l.filter p := by
  induction l with
  | nil => rfl
  | cons x xs ih =>
    rw [List.dropWhile_cons]
    by_cases hq : q x = true
    · rw [if_pos hq]
      have hpx : p x = false := h x (by simp) hq
      rw [ih (fun y hy hqy => h y (List.mem_cons_of_mem x hy) hqy)]
      rw [List.filter_cons, hpx]
      simp
    · rw [if_neg hq]

theorem filter_takeWhile_sorted (p q : α → Bool) (r : α → α → Prop) (l : List α)
    (hs : l.Pairwise r)
    (hpq : ∀ x, p x = true → q x = true)
    (hmono : ∀ x y, r x y → q x = false → q y = false) :
    (l.takeWhile q).filter p = l.filter p := by
  induction l with
  | nil => rfl
  | cons x xs ih =>
    rw [List.takeWhile_cons]
    rcases List.pairwise_cons.mp hs with ⟨hhead, htail⟩
    by_cases hq : q x = true
    · rw [if_pos hq]
      simp only [List.filter_cons]
      rw [ih htail]
    · rw [if_neg hq]
      have hq0 : q x = false := by simpa using hq
      have hpeq : ∀ a, q a = false → p a = false := by
        intro a hqa
        cases hpb : p a
        · rfl
        · exact absurd (hpq a hpb) (by simp [hqa])
      have hnil : List.filter p (x :: xs) = [] := by
        rw [List.filter_eq_nil_iff]
        intro a ha
        rcases List.mem_cons.mp ha with rfl | ha2
        · simp [hpeq a hq0]
        · simp [hpeq a (hmono x a (hhead a ha2) hq0)]
      rw [hnil]
      rfl

theorem contains_imp_lessThanEnd (kr : keyRange) (k : Bytes)
    (h : kr.contains k = true) : kr.lessThanEnd k = true := by
  have := (Bool.and_eq_true _ _).mp h
  exact this.2

theorem lessThanEnd_some (kr : keyRange) (e : Bytes) (he : kr.endKey = some e)
    (k : Bytes) :
    kr.lessThanEnd k
      = match bytesCmp k e with
        | .lt => true
        | .eq => kr.includeEnd
        | .gt => false := by
  unfold keyRange.lessThanEnd
  rw [he]

theorem geStart_some (kr : keyRange) (s : Bytes) (hst : kr.startKey = some s)
    (k : Bytes) :
    kr.geStart k
      = match bytesCmp k s with
        | .gt => true
        | .eq => kr.includeStart
        | .lt => false := by
  unfold keyRange.geStart
  rw [hst]

theorem lessThanEnd_mono (kr : keyRange) (x y : Bytes)
    (hxy : bytesLt x y = true) (hx : kr.lessThanEnd x = false) :
    kr.lessThanEnd y = false := by
  have hlt : bytesCmp x y = .lt := (bytesLt_iff x y).mp hxy
  cases he : kr.endKey with
  | none =>
    rw [keyRange.lessThanEnd, he] at hx
    cases hx
  | some e =>
    rw [lessThanEnd_some kr e he] at hx
    rw [lessThanEnd_some kr e he]
    rcases hc : bytesCmp x e with h1 | h1 | h1 <;> rw [hc] at hx
    · cases hx
    · have hx2 : x = e := (bytesCmp_eq_iff x e).mp hc
      subst hx2
      rw [bytesCmp_gt_of_lt hlt]
    · have hex : bytesCmp e x = .lt := bytesCmp_lt_of_gt hc
      have hey : bytesCmp e y = .lt := bytesCmp_lt_trans e x y hex hlt
      rw [bytesCmp_gt_of_lt hey]

theorem geStart_false_of_lt (kr : keyRange) (s k : Bytes)
    (hst : kr.startKey = some s) (h : bytesLt k s = true) :
    kr.geStart k = false := by
  rw [geStart_some kr s hst, (bytesLt_iff k s).mp h]

theorem contains_false_of_lt (kr : keyRange) (s k : Bytes)
    (hst : kr.startKey = some s) (h : bytesLt k s = true) :
    kr.contains k = false := by
  unfold keyRange.contains
  rw [geStart_false_of_lt kr s k hst h]
  rfl

/-- Sortedness on row entries: strictly increasing id bytes. -/
def dataSorted (bucket : List (Bytes × Row)) : Prop :=
  List.Pairwise (fun a b => bytesLt a.1 b.1 = true) bucket

theorem dataGet_eq_filter_seek (kr : keyRange) (bucket : List (Bytes × Row))
    (hs : dataSorted bucket) :
    dataGet kr bucket = (seekPos kr bucket).filter (fun e : Bytes × Row => kr.contains e.1) := by
  unfold dataGet
  apply filter_takeWhile_sorted _ _ (fun a b => bytesLt a.1 b.1 = true)
  · have hsub : List.Sublist (seekPos kr bucket) bucket := by
      unfold seekPos
      cases kr.startKey with
      | none =>
        cases kr.includeStart
        · simpa using List.drop_sublist 1 bucket
        · simp
      | some s =>
        cases kr.includeStart
        · simpa using
            (List.drop_sublist 1 _).trans
              (List.dropWhile_sublist (fun e : Bytes × Row => bytesLt e.1 s))
        · simpa using List.dropWhile_sublist (fun e : Bytes × Row => bytesLt e.1 s)
    exact hs.sublist hsub
  · intro x hx
    exact contains_imp_lessThanEnd kr x.1 hx
  · intro x y hxy hx
    exact lessThanEnd_mono kr x.1 y.1 hxy hx

theorem dataGet_eq_filter (kr : keyRange) (bucket : List (Bytes × Row))
    (hs : dataSorted bucket) (hinc : kr.includeStart = true) :
    dataGet kr bucket = bucket.filter (fun e : Bytes × Row => kr.contains e.1) := by
  rw [dataGet_eq_filter_seek kr bucket hs]
  unfold seekPos
  rw [hinc]
  cases hst : kr.startKey with
  | none => simp
  | some s =>
    simp only []
    exact filter_dropWhile_of_imp _ _ bucket
      (fun x hx hq => contains_false_of_lt kr s x.1 hst hq)

/-! ### C9: dataStorage.get honors the key range -/

/-- The C9 claim as stated: over a sorted primary bucket, `dataStorage.get`
yields exactly the entries whose keys the range contains (in particular an
exclusive start only excludes a key equal to `startKey`). -/
def DataGetYieldsContained : Prop :=
  ∀ (kr : keyRange) (bucket : List (Bytes × Row)),
    dataSorted bucket →
    dataGet kr bucket = bucket.filter (fun e : Bytes × Row => kr.contains e.1)

/-- C9 counterexample: with start key `[1]` exclusive and a bucket holding
only the key `[2]`, the cursor seeks to `[2]` and the unconditional `Next`
for the exclusive start skips it, so `get` yields nothing although the range
contains `[2]`. -/
theorem c9_counterexample : ¬ DataGetYieldsContained := by
  intro h
  have hx := h ⟨some [1], none, false, false⟩ [([2], [(("a"), Val.vInt 0)])]
    (by simp [dataSorted])
  rw [show dataGet ⟨some [1], none, false, false⟩ [([2], [(("a"), Val.vInt 0)])] = []
      from rfl] at hx
  rw [show List.filter (fun e : Bytes × Row => keyRange.contains ⟨some [1], none, false, false⟩ e.1)
        [([2], [(("a"), Val.vInt 0)])] = [([2], [(("a"), Val.vInt 0)])] from rfl] at hx
  exact absurd hx (by simp)

/-- C9 amended: over a sorted bucket, `dataStorage.get` yields, in ascending
key order, exactly the contained entries at or after the cursor's start
position — where an exclusive start additionally skips the first positioned
entry even when its key strictly exceeds `startKey` (and skips the very first
entry when `startKey` is absent); with an inclusive start the result is
exactly the contained entries. -/
theorem c9_dataget_range_amended (kr : keyRange) (bucket : List (Bytes × Row))
    (hs : dataSorted bucket) :
    dataGet kr bucket = (seekPos kr bucket).filter (fun e : Bytes × Row => kr.contains e.1) ∧
    (kr.includeStart = true →
      dataGet kr bucket = bucket.filter (fun e : Bytes × Row => kr.contains e.1)) ∧
    dataSorted (dataGet kr bucket) := by
  refine ⟨dataGet_eq_filter_seek kr bucket hs, dataGet_eq_filter kr bucket hs, ?_⟩
  have hsub : List.Sublist (dataGet kr bucket) bucket := by
    unfold dataGet
    refine (List.filter_sublist _).trans ?_
    refine (List.takeWhile_sublist _).trans ?_
    unfold seekPos
    cases kr.startKey with
    | none =>
      cases kr.includeStart
      · simpa using List.drop_sublist 1 bucket
      · simp
    | some s =>
      cases kr.includeStart
      · simpa using
          (List.drop_sublist 1 _).trans
            (List.dropWhile_sublist (fun e : Bytes × Row => bytesLt e.1 s))
      · simpa using List.dropWhile_sublist (fun e : Bytes × Row => bytesLt e.1 s)
  exact hs.sublist hsub

/-- Witness for C9 amended: the two-entry bucket with keys `[1]`, `[2]` and
the exclusive-start range `([1], +inf)`: the seek lands on `[1]`, the
exclusive start skips it, and the scan yields exactly the entry at `[2]`. -/
theorem c9_dataget_range_amended_witness :
    dataSorted [([1], ([] : Row)), ([2], [])] ∧
    dataGet ⟨some [1], none, false, false⟩ [([1], ([] : Row)), ([2], [])]
      = (seekPos ⟨some [1], none, false, false⟩ [([1], ([] : Row)), ([2], [])]).filter
          (fun e : Bytes × Row => keyRange.contains ⟨some [1], none, false, false⟩ e.1) := by
  have hs : dataSorted [([1], ([] : Row)), ([2], [])] := by
    simp [dataSorted, bytesLt, bytesCmp]
    rfl
  exact ⟨hs, (c9_dataget_range_amended _ _ hs).1⟩

/-! ### C8: the locator-based index scan of src/unnamed/part_000 -/

/-- The well-typed two-component reading of a stored key: decode, require
exactly two components, type-check them as key bytes and row id — the shape
the scan loop of the old `indexStorage.get` yields from. -/
def decode2 (key : Bytes) : Option (Bytes × Nat) :=
  match decodeVals key with
  | some [p0, p1] =>
    match partAsBytes p0 with
    | none => none
    | some vb =>
      match partAsId p1 with
      | none => none
      | some id => some (vb, id)
  | _ => none

/-- The successfully yielded ids of a scan. -/
def okIds (l : List (Except Err Nat)) : List Nat :=
  l.filterMap (fun x =>
    match x with
    | .ok id => some id
    | .error _ => none)

/-- Codec coherence of adjacent stored keys: when both decode to well-typed
entries, byte order of the raw keys bounds the order of the decoded leading
components (the order-preserving codec contract). -/
def decodeLeLeading (k1 k2 : Bytes) : Bool :=
  match decode2 k1, decode2 k2 with
  | some d1, some d2 => bytesCmp d1.1 d2.1 != .gt
  | _, _ => true

theorem okIds_nil : okIds [] = [] := rfl

theorem okIds_error (e : Err) (l : List (Except Err Nat)) :
    okIds (.error e :: l) = okIds l := by
  simp [okIds]

theorem okIds_ok (id : Nat) (l : List (Except Err Nat)) :
    okIds (.ok id :: l) = id :: okIds l := by
  simp [okIds]

theorem lessThanEnd_mono_le (kr : keyRange) (x y : Bytes)
    (hxy : bytesCmp x y ≠ .gt) (hx : kr.lessThanEnd x = false) :
    kr.lessThanEnd y = false := by
  rcases (bytesCmp_ne_gt_iff x y).mp hxy with h | h
  · exact lessThanEnd_mono kr x y ((bytesLt_iff x y).mpr h) hx
  · subst h; exact hx

/-- The C8 claim's skip rule as stated: for an index over `k` columns, a
stored key whose decoded component count is not exactly `k + 1` is skipped —
a one-key bucket scan yields nothing from it. -/
def IdxGetSkipsNonKPlus1 : Prop :=
  ∀ (k : Nat) (kr : keyRange) (key : Bytes) (parts : List Val),
    decodeVals key = some parts → parts.length ≠ k + 1 →
    idxGetRaw kr [key] = []

/-- C8 counterexample: for a composite index over `k = 2` columns, the stored
key `Marshal([]any{[5], 7})` decodes to two components — not `k + 1 = 3` —
yet the scan yields its row id `7`: the code skips on a component count other
than two, regardless of the index's column count. -/
theorem c8_counterexample : ¬ IdxGetSkipsNonKPlus1 := by
  intro h
  have hx := h 2 {} ((0x32 :: escTerm [5]) ++ encNonneg 7)
    [.vBytes [5], .vInt 7] rfl (by decide)
  rw [show idxGetRaw {} [(0x32 :: escTerm [5]) ++ encNonneg 7] = [.ok 7]
      from rfl] at hx
  exact absurd hx (by simp)

/-- C8 amended: over a codec-coherent bucket suffix, the scan loop of the
locator-based `indexStorage.get` yields exactly the row-id components of the
stored keys that decode to exactly two well-typed components — one key
component, one row id, regardless of the index's column count — whose key
component the range contains; decode failures yield errors rather than ids,
and the early stop past the range end loses nothing. -/
theorem idxScanRaw_cons (kr : keyRange) (key : Bytes) (rest : List Bytes) :
    idxScanRaw kr (key :: rest)
      = match decodeVals key, decode2 key with
        | none, _ => .error .cannotUnmarshal :: idxScanRaw kr rest
        | some _, none => idxScanRaw kr rest
        | some _, some d =>
          if kr.contains d.1 then .ok d.2 :: idxScanRaw kr rest
          else if kr.lessThanEnd d.1 then idxScanRaw kr rest
          else [] := by
  rcases hdv : decodeVals key with _ | parts
  · simp [idxScanRaw, hdv, decode2]
  · match parts with
    | [] => simp [idxScanRaw, hdv, decode2]
    | [p0] => simp [idxScanRaw, hdv, decode2]
    | p0 :: p1 :: p2 :: ps => simp [idxScanRaw, hdv, decode2]
    | [p0, p1] =>
      rcases hb : partAsBytes p0 with _ | vb
      · simp [idxScanRaw, hdv, hb, decode2]
      · rcases hid : partAsId p1 with _ | id
        · simp [idxScanRaw, hdv, hb, hid, decode2]
        · simp [idxScanRaw, hdv, hb, hid, decode2]

theorem c8_idx_scan_amended (kr : keyRange) (l : List Bytes)
    (hmono : List.Pairwise (fun k1 k2 => decodeLeLeading k1 k2 = true) l) :
    okIds (idxScanRaw kr l)
      = l.filterMap (fun key => (decode2 key).bind
          (fun d => if kr.contains d.1 then some d.2 else none)) := by
  induction l with
  | nil => rfl
  | cons key rest ih =>
    rcases List.pairwise_cons.mp hmono with ⟨hhead, htail⟩
    rw [idxScanRaw_cons, List.filterMap_cons]
    rcases hdv : decodeVals key with _ | parts
    · have hd2 : decode2 key = none := by simp [decode2, hdv]
      simp only [hd2, Option.none_bind, okIds_error]
      exact ih htail
    · rcases hd2 : decode2 key with _ | d
      · simp only [hd2, Option.none_bind]
        exact ih htail
      · by_cases hc : kr.contains d.1 = true
        · simp only [hd2, Option.some_bind, hc, if_true, okIds_ok]
          rw [ih htail]
        · have hc0 : kr.contains d.1 = false := by simpa using hc
          simp only [hd2, Option.some_bind, hc0]
          by_cases hlte : kr.lessThanEnd d.1 = true
          · simp only [hlte, if_true, if_false]
            simpa using ih htail
          · have hlte0 : kr.lessThanEnd d.1 = false := by simpa using hlte
            have hrest : rest.filterMap (fun key2 => (decode2 key2).bind
                (fun d2 => if kr.contains d2.1 then some d2.2 else none)) = [] := by
              rw [List.filterMap_eq_nil_iff]
              intro key2 hk2
              rcases hd2b : decode2 key2 with _ | d2
              · simp
              · have hle := hhead key2 hk2
                unfold decodeLeLeading at hle
                rw [hd2, hd2b] at hle
                have hle3 : (bytesCmp d.1 d2.1 != Ordering.gt) = true := hle
                have hle2 : bytesCmp d.1 d2.1 ≠ .gt := by
                  intro hgt
                  rw [hgt] at hle3
                  exact absurd hle3 (by decide)
                have hlow : kr.lessThanEnd d2.1 = false :=
                  lessThanEnd_mono_le kr d.1 d2.1 hle2 hlte0
                have hcd2 : kr.contains d2.1 = false := by
                  cases hcb : kr.contains d2.1
                  · rfl
                  · rw [contains_imp_lessThanEnd kr d2.1 hcb] at hlow
                    cases hlow
                simp [hcd2]
            simp only [hlte0, if_false, okIds_nil]
            rw [hrest]
            simp
            exact okIds_nil

/-- Witness for C8 amended at a concrete two-key bucket: keys
`Marshal([]any{[5], 7})` and `Marshal([]any{[6], 9})` over the full range. -/
theorem c8_idx_scan_amended_witness :
    List.Pairwise (fun k1 k2 => decodeLeLeading k1 k2 = true)
      [(0x32 :: escTerm [5]) ++ encNonneg 7, (0x32 :: escTerm [6]) ++ encNonneg 9] ∧
    okIds (idxScanRaw {}
        [(0x32 :: escTerm [5]) ++ encNonneg 7, (0x32 :: escTerm [6]) ++ encNonneg 9])
      = List.filterMap (fun key => (decode2 key).bind
          (fun d => if keyRange.contains {} d.1 then some d.2 else none))
          [(0x32 :: escTerm [5]) ++ encNonneg 7, (0x32 :: escTerm [6]) ++ encNonneg 9] := by
  refine ⟨by decide, c8_idx_scan_amended _ _ (by decide)⟩

/-! ### C10: the consumer's stop signal is honored -/

theorem all_dropLast (f : α → Bool) (l : List α) (h : l.all f = true) :
    l.dropLast.all f = true := by
  rw [List.all_eq_true] at h ⊢
  intro x hx
  exact h x (List.dropLast_subset l hx)

theorem stopsAfterFalse_nil (f : α → Bool) : StopsAfterFalse f [] := by
  simp [StopsAfterFalse]

theorem stopsAfterFalse_single (f : α → Bool) (x : α) : StopsAfterFalse f [x] := by
  simp [StopsAfterFalse]

theorem stopsAfterFalse_cons (f : α → Bool) (x : α) (l : List α)
    (hx : f x = true) (h : StopsAfterFalse f l) : StopsAfterFalse f (x :: l) := by
  cases l with
  | nil => simp [StopsAfterFalse]
  | cons y ys =>
    unfold StopsAfterFalse at h ⊢
    have hd : (x :: y :: ys).dropLast = x :: (y :: ys).dropLast := rfl
    rw [hd, List.all_cons, hx, h]
    rfl

theorem stopsAfterFalse_append (f : α → Bool) (l1 l2 : List α)
    (h1 : l1.all f = true) (h2 : StopsAfterFalse f l2) :
    StopsAfterFalse f (l1 ++ l2) := by
  cases l2 with
  | nil =>
    unfold StopsAfterFalse
    rw [List.append_nil]
    exact all_dropLast f l1 h1
  | cons c cs =>
    unfold StopsAfterFalse at h2 ⊢
    rw [List.dropLast_append_cons, List.all_append, h1, h2]
    rfl

theorem scanFilterRun_spec (pr : Schema) (ranges : Ranges) (skip : String)
    (f : Except Err entry → Bool) (l : List (Bytes × Row)) :
    ((scanFilterRun pr ranges skip f l).2 = false →
      (scanFilterRun pr ranges skip f l).1.all f = true) ∧
    StopsAfterFalse f (scanFilterRun pr ranges skip f l).1 := by
  induction l with
  | nil => exact ⟨fun _ => rfl, stopsAfterFalse_nil f⟩
  | cons e rest ih =>
    unfold scanFilterRun
    rcases hm : matchOps pr e.2 ranges skip with err | b
    · dsimp only
      by_cases hf : f (.error err) = true
      · rw [if_pos hf]
        constructor
        · intro h2
          rw [List.all_cons, hf, ih.1 h2]
          rfl
        · exact stopsAfterFalse_cons f _ _ hf ih.2
      · rw [if_neg hf]
        exact ⟨fun h => Bool.noConfusion h, stopsAfterFalse_single f _⟩
    · cases b
      · exact ih
      · dsimp only
        by_cases hf : f (.ok ⟨e.1, e.2⟩) = true
        · rw [if_pos hf]
          constructor
          · intro h2
            rw [List.all_cons, hf, ih.1 h2]
            rfl
          · exact stopsAfterFalse_cons f _ _ hf ih.2
        · rw [if_neg hf]
          exact ⟨fun h => Bool.noConfusion h, stopsAfterFalse_single f _⟩

theorem dataGetRunGo_stops (kr : keyRange) (f : Bytes × Row → Bool)
    (l : List (Bytes × Row)) : StopsAfterFalse f (dataGetRunGo kr f l) := by
  induction l with
  | nil => exact stopsAfterFalse_nil f
  | cons e rest ih =>
    unfold dataGetRunGo
    by_cases h1 : kr.lessThanEnd e.1 = true
    · rw [if_pos h1]
      by_cases h2 : kr.contains e.1 = true
      · rw [if_pos h2]
        by_cases h3 : f e = true
        · rw [if_pos h3]
          exact stopsAfterFalse_cons f e _ h3 ih
        · rw [if_neg h3]
          exact stopsAfterFalse_single f e
      · rw [if_neg h2]
        exact ih
    · rw [if_neg h1]
      exact stopsAfterFalse_nil f

theorem indexPathRun_stops (pr : Schema) (st : RelState) (ranges : Ranges)
    (chosen : String) (f : Except Err entry → Bool) (ids : List Bytes) :
    StopsAfterFalse f (indexPathRun pr st ranges chosen f ids) := by
  induction ids with
  | nil => exact stopsAfterFalse_nil f
  | cons id rest ih =>
    have hspec := scanFilterRun_spec pr ranges chosen f (dataGet (singleRange id) st.dataB)
    unfold indexPathRun
    rcases hsr : scanFilterRun pr ranges chosen f (dataGet (singleRange id) st.dataB)
      with ⟨calls, stopped⟩
    rw [hsr] at hspec
    cases stopped
    · exact stopsAfterFalse_append f calls _ (hspec.1 rfl) ih
    · exact hspec.2

theorem iterCalls_stops (dist : keyRange → Bytes) (pr : Schema) (st : RelState)
    (ops : List Op) (f : Except Err entry → Bool) :
    StopsAfterFalse f (iterCalls dist pr st ops f) := by
  unfold iterCalls
  cases htr : toRanges ops with
  | error e => exact stopsAfterFalse_nil f
  | ok ranges =>
    dsimp only
    cases hsel : selectedIdxs pr ranges with
    | nil => exact (scanFilterRun_spec pr ranges "" f (dataGet fullRange st.dataB)).2
    | cons c rest =>
      dsimp only
      cases hidx : idxGet st (chooseIdx dist ranges c rest)
          ((ranges.lookup (chooseIdx dist ranges c rest)).getD {}) with
      | error e => exact stopsAfterFalse_nil f
      | ok ids => exact indexPathRun_stops pr st ranges _ f ids

theorem dropLast_map_eq (f : α → β) :
    ∀ l : List α, (l.map f).dropLast = l.dropLast.map f := by
  intro l
  induction l with
  | nil => rfl
  | cons x xs ih =>
    cases xs with
    | nil => rfl
    | cons y ys =>
      have h1 : ((x :: y :: ys).map f).dropLast
          = f x :: ((y :: ys).map f).dropLast := rfl
      have h2 : ((x :: y :: ys).dropLast).map f
          = f x :: ((y :: ys).dropLast).map f := rfl
      rw [h1, h2, ih]

theorem selectCalls_stops (dist : keyRange → Bytes) (pr : Schema) (st : RelState)
    (ops : List Op) (g : Except Err Row → Bool) :
    StopsAfterFalse g (selectCalls dist pr st ops g) := by
  have h := iterCalls_stops dist pr st ops (fun x => g (toRowYield x))
  unfold selectCalls StopsAfterFalse at h ⊢
  rw [dropLast_map_eq]
  rw [List.all_eq_true] at h ⊢
  intro x hx
  rcases List.mem_map.mp hx with ⟨y, hy, rfl⟩
  exact h y hy

/-- C10: for `dataStorage.get`, `Persistent.iter`, and `Persistent.Select`,
once the consumer's yield callback returns `false` the iterator invokes it on
no further pair — in every call trace, each call but the last returned
`true`. -/
theorem c10_iterators_honor_stop :
    (∀ (kr : keyRange) (bucket : List (Bytes × Row)) (f : Bytes × Row → Bool),
      StopsAfterFalse f (dataGetRun kr f bucket)) ∧
    (∀ (dist : keyRange → Bytes) (pr : Schema) (st : RelState) (ops : List Op)
      (f : Except Err entry → Bool),
      StopsAfterFalse f (iterCalls dist pr st ops f)) ∧
    (∀ (dist : keyRange → Bytes) (pr : Schema) (st : RelState) (ops : List Op)
      (g : Except Err Row → Bool),
      StopsAfterFalse g (selectCalls dist pr st ops g)) := by
  refine ⟨?_, ?_, ?_⟩
  · intro kr bucket f
    exact dataGetRunGo_stops kr f (seekPos kr bucket)
  · intro dist pr st ops f
    exact iterCalls_stops dist pr st ops f
  · intro dist pr st ops g
    exact selectCalls_stops dist pr st ops g

/-! ### Window lemmas for the pair-keyed index scan -/

/-- Sortedness of an index bucket in composite order. -/
def pairSorted (l : List (Bytes × Bytes)) : Prop :=
  List.Pairwise (fun p q => pairLtB p q = true) l

theorem pairLt_key_ne_gt (p q : Bytes × Bytes) (h : pairLtB p q = true) :
    bytesCmp p.1 q.1 ≠ .gt := by
  intro hgt
  unfold pairLtB pairCmp at h
  rw [hgt] at h
  have h2 : (Ordering.gt == Ordering.lt) = true := h
  exact absurd h2 (by decide)

theorem idxScan_eq_filter (kr : keyRange) (l : List (Bytes × Bytes))
    (hs : pairSorted l) :
    idxScan kr l = (l.filter (fun p => kr.contains p.1)).map (fun p => p.2) := by
  induction l with
  | nil => rfl
  | cons p rest ih =>
    obtain ⟨k, id⟩ := p
    rcases List.pairwise_cons.mp hs with ⟨hhead, htail⟩
    by_cases hc : kr.contains k = true
    · rw [show idxScan kr ((k, id) :: rest) = id :: idxScan kr rest from by
        simp [idxScan, hc]]
      rw [List.filter_cons_of_pos (by simpa using hc), List.map_cons, ih htail]
    · have hc0 : keyRange.contains kr k = false := by simpa using hc
      by_cases hl : kr.lessThanEnd k = true
      · rw [show idxScan kr ((k, id) :: rest) = idxScan kr rest from by
          simp [idxScan, hc0, hl]]
        rw [List.filter_cons_of_neg (by simp [hc0]), ih htail]
      · have hl0 : keyRange.lessThanEnd kr k = false := by simpa using hl
        rw [show idxScan kr ((k, id) :: rest) = [] from by
          simp [idxScan, hc0, hl0]]
        rw [List.filter_cons_of_neg (by simp [hc0])]
        have hnil : rest.filter (fun p => kr.contains p.1) = [] := by
          rw [List.filter_eq_nil_iff]
          intro q hq
          have hle := pairLt_key_ne_gt _ _ (hhead q hq)
          have hlow : kr.lessThanEnd q.1 = false :=
            lessThanEnd_mono_le kr k q.1 hle hl0
          intro hcq
          rw [contains_imp_lessThanEnd kr q.1 (by simpa using hcq)] at hlow
          cases hlow
        rw [hnil]
        rfl

theorem idxScan_seek_eq_filter (kr : keyRange) (l : List (Bytes × Bytes))
    (hs : pairSorted l) :
    idxScan kr (idxSeek kr l)
      = (l.filter (fun p => kr.contains p.1)).map (fun p => p.2) := by
  have hsub : List.Sublist (idxSeek kr l) l := by
    unfold idxSeek
    cases kr.startKey with
    | none => simp
    | some s => simpa using List.dropWhile_sublist (fun e : Bytes × Bytes => bytesLt e.1 s)
  rw [idxScan_eq_filter kr (idxSeek kr l) (hs.sublist hsub)]
  congr 1
  unfold idxSeek
  cases hst : kr.startKey with
  | none => rfl
  | some s =>
    exact filter_dropWhile_of_imp _ _ l
      (fun x hx hq => contains_false_of_lt kr s x.1 hst hq)

theorem idxGet_eq_filter (st : RelState) (name : String) (kr : keyRange)
    (bucket : List (Bytes × Bytes)) (hbk : st.indexB.lookup name = some bucket)
    (hs : pairSorted bucket) :
    idxGet st name kr
      = .ok ((bucket.filter (fun p => kr.contains p.1)).map (fun p => p.2)) := by
  unfold idxGet
  rw [hbk]
  exact congrArg Except.ok (idxScan_seek_eq_filter kr bucket hs)

theorem contains_eqRange (v k : Bytes) :
    keyRange.contains ⟨some v, some v, true, true⟩ k = true ↔ k = v := by
  rcases hc : bytesCmp k v with h1 | h1 | h1
  · have : k ≠ v := by
      intro he; subst he; rw [bytesCmp_self] at hc; cases hc
    simp [keyRange.contains, keyRange.geStart, keyRange.lessThanEnd, hc, this]
  · have hkv : k = v := (bytesCmp_eq_iff k v).mp hc
    subst hkv
    simp [keyRange.contains, keyRange.geStart, keyRange.lessThanEnd, bytesCmp_self]
  · have : k ≠ v := by
      intro he; subst he; rw [bytesCmp_self] at hc; cases hc
    simp [keyRange.contains, keyRange.geStart, keyRange.lessThanEnd, hc, this]

theorem toRanges_eq_single (f : String) (val : Val) (v : Bytes)
    (hv : Marshal val = .ok v) :
    toRanges [Op.eq f val] = .ok [(f, ⟨some v, some v, true, true⟩)] := by
  simp [toRanges, toRangesGo, Op.eq, hv, rangesUpdate, opRange]

/-! ### C3: unique violation -/

/-- C3 counterexample: on `users` with unique `email`, after the first insert
the second insert of the same email returns `UniqueConstraint("email")` — but
the DataStore does not show only the first row: the failed insert's data
entry is present, because `Insert` writes the data entry before probing the
unique indexes. -/
theorem c3_counterexample :
    (Insert usersSchema usersSt1 rowB).1 = .error (.uniqueConstraint ("email")) ∧
    (Insert usersSchema usersSt1 rowB).2.dataB ≠ usersSt1.dataB := by
  constructor
  · exact rfl
  · intro h
    have hlen := congrArg List.length h
    rw [show (Insert usersSchema usersSt1 rowB).2.dataB.length = 2 from rfl,
      show usersSt1.dataB.length = 1 from rfl] at hlen
    exact absurd hlen (by decide)

/-- C3 amended: when the relation's single unique index `u` already holds an
entry whose key prefix equals the encoded key tuple of the new row, `Insert`
returns `UniqueConstraint(u)` and the resulting state is exactly the
pre-state plus the already-performed data-store insert: the IndexStore and
ReverseIndexStore are untouched, but the DataStore additionally holds the
failed row under a freshly consumed row id. -/
theorem c3_unique_violation_amended (pr : Schema) (st : RelState) (obj : Row)
    (u : String) (cols : List String) (v : Bytes)
    (bucket : List (Bytes × Bytes))
    (hu : pr.uniquesMeta = [(u, cols)])
    (hlen : obj.length = pr.columns.length)
    (hmiss : pr.columns.find? (fun c => (obj.lookup c).isNone) = none)
    (hv : Marshal (.vList (keyPartsOf obj cols)) = .ok v)
    (hbk : st.indexB.lookup u = some bucket)
    (hsorted : pairSorted bucket)
    (hhit : ∃ p ∈ bucket, p.1 = v) :
    Insert pr st obj = (.error (.uniqueConstraint u), (dataInsert st obj).2) := by
  have hbk2 : (dataInsert st obj).2.indexB.lookup u = some bucket := hbk
  have hlook : (List.lookup u [(u, (⟨some v, some v, true, true⟩ : keyRange))]).getD
      (⟨none, none, false, false⟩ : keyRange) = ⟨some v, some v, true, true⟩ := by
    simp
  have hprobe : probeUniques (dataInsert st obj).2 obj pr.uniquesMeta
      = .error (.uniqueConstraint u) := by
    rw [hu]
    unfold probeUniques
    dsimp only
    rw [toRanges_eq_single u (.vList (keyPartsOf obj cols)) v hv]
    dsimp only
    rw [hlook, idxGet_eq_filter (dataInsert st obj).2 u _ bucket hbk2 hsorted]
    rcases hhit with ⟨p, hpmem, hpv⟩
    have hpmem2 : p ∈ bucket.filter
        (fun q => keyRange.contains ⟨some v, some v, true, true⟩ q.1) := by
      rw [List.mem_filter]
      exact ⟨hpmem, by rw [hpv]; exact (contains_eqRange v v).mpr rfl⟩
    cases hres : (bucket.filter
        (fun q => keyRange.contains ⟨some v, some v, true, true⟩ q.1)).map
          (fun q => q.2) with
    | nil =>
      exact absurd (List.mem_map_of_mem (fun q => q.2) hpmem2) (by simp [hres])
    | cons x xs =>
      rfl
  unfold Insert
  rw [if_neg (by simp [hlen]), hmiss]
  dsimp only
  rw [hprobe]

/-- Witness for C3 amended at the concrete second insert of scenario 2. -/
theorem c3_unique_violation_amended_witness :
    Insert usersSchema usersSt1 rowB
      = (.error (.uniqueConstraint ("email")), (dataInsert usersSt1 rowB).2) := by
  refine c3_unique_violation_amended usersSchema usersSt1 rowB ("email") [("email")]
    (0x33 :: escTerm [97, 64, 120])
    [(0x33 :: escTerm [97, 64, 120], idEnc 1)]
    rfl (by decide) (by decide) rfl rfl ?_ ?_
  · simp [pairSorted]
  · exact ⟨(0x33 :: escTerm [97, 64, 120], idEnc 1), by simp, rfl⟩

/-! ### Pair order and sorted insertion -/

theorem pairCmp_eq_iff (p q : Bytes × Bytes) : pairCmp p q = .eq ↔ p = q := by
  unfold pairCmp
  rcases hc : bytesCmp p.1 q.1 with h1 | h1 | h1
  · constructor
    · intro h; cases h
    · intro h
      subst h
      rw [bytesCmp_self] at hc
      cases hc
  · have h1 : p.1 = q.1 := (bytesCmp_eq_iff _ _).mp hc
    rw [bytesCmp_eq_iff]
    constructor
    · intro h2
      exact Prod.ext h1 h2
    · intro h2
      rw [h2]
  · constructor
    · intro h; cases h
    · intro h
      subst h
      rw [bytesCmp_self] at hc
      cases hc

theorem pairCmp_swap (p q : Bytes × Bytes) : pairCmp q p = (pairCmp p q).swap := by
  unfold pairCmp
  rw [bytesCmp_swap p.1 q.1, bytesCmp_swap p.2 q.2]
  rcases bytesCmp p.1 q.1 with _ | _ | _ <;> rfl

theorem pairCmp_lt_trans {p q r : Bytes × Bytes} (h1 : pairCmp p q = .lt)
    (h2 : pairCmp q r = .lt) : pairCmp p r = .lt := by
  unfold pairCmp at h1 h2 ⊢
  rcases ha : bytesCmp p.1 q.1 with x | x | x <;> rw [ha] at h1 <;>
    rcases hb : bytesCmp q.1 r.1 with y | y | y <;> rw [hb] at h2
  · rw [bytesCmp_lt_trans _ _ _ ha hb]
  · have : q.1 = r.1 := (bytesCmp_eq_iff _ _).mp hb
    rw [← this, ha]
  · cases h2
  · have : p.1 = q.1 := (bytesCmp_eq_iff _ _).mp ha
    rw [this, hb]
  · have ha2 : p.1 = q.1 := (bytesCmp_eq_iff _ _).mp ha
    have hb2 : q.1 = r.1 := (bytesCmp_eq_iff _ _).mp hb
    rw [ha2, hb2, bytesCmp_self]
    have := bytesCmp_lt_trans _ _ _ h1 h2
    exact this
  · cases h2
  · cases h1
  · cases h1
  · cases h1

theorem pairLtB_trans {p q r : Bytes × Bytes} (h1 : pairLtB p q = true)
    (h2 : pairLtB q r = true) : pairLtB p r = true := by
  unfold pairLtB at h1 h2 ⊢
  rcases ha : pairCmp p q with x | x | x <;> rw [ha] at h1 <;> try exact absurd h1 (by decide)
  rcases hb : pairCmp q r with y | y | y <;> rw [hb] at h2 <;> try exact absurd h2 (by decide)
  rw [pairCmp_lt_trans ha hb]
  rfl

theorem pairLtB_of_gt {p q : Bytes × Bytes} (h : pairCmp p q = .gt) :
    pairLtB q p = true := by
  unfold pairLtB
  rw [pairCmp_swap p q, h]
  rfl

theorem mem_putPair (p x : Bytes × Bytes) (l : List (Bytes × Bytes))
    (hx : x ∈ putPair p l) : x = p ∨ x ∈ l := by
  induction l with
  | nil =>
    rcases List.mem_singleton.mp hx with h
    exact Or.inl h
  | cons q rest ih =>
    unfold putPair at hx
    rcases hc : pairCmp p q with h1 | h1 | h1 <;> rw [hc] at hx
    · rcases List.mem_cons.mp hx with h | h
      · exact Or.inl h
      · exact Or.inr h
    · exact Or.inr hx
    · rcases List.mem_cons.mp hx with h | h
      · exact Or.inr (by rw [h]; exact List.mem_cons_self q rest)
      · rcases ih h with h2 | h2
        · exact Or.inl h2
        · exact Or.inr (List.mem_cons_of_mem q h2)

theorem putPair_pairSorted (p : Bytes × Bytes) (l : List (Bytes × Bytes))
    (hs : pairSorted l) : pairSorted (putPair p l) := by
  induction l with
  | nil => simp [putPair, pairSorted]
  | cons q rest ih =>
    rcases List.pairwise_cons.mp hs with ⟨hhead, htail⟩
    unfold putPair
    rcases hc : pairCmp p q with h1 | h1 | h1
    · -- p before q
      rw [pairSorted, List.pairwise_cons]
      constructor
      · intro x hx
        rcases List.mem_cons.mp hx with h | h
        · rw [h]
          unfold pairLtB
          rw [hc]
          rfl
        · exact pairLtB_trans (show pairLtB p q = true from by
            unfold pairLtB; rw [hc]; rfl) (hhead x h)
      · exact hs
    · exact hs
    · -- q stays in front of putPair p rest
      rw [pairSorted, List.pairwise_cons]
      constructor
      · intro x hx
        rcases mem_putPair p x rest hx with h | h
        · rw [h]
          exact pairLtB_of_gt hc
        · exact hhead x h
      · exact ih htail

theorem putPair_keysDistinct (p : Bytes × Bytes) (l : List (Bytes × Bytes))
    (hd : List.Pairwise (fun a b => a.1 ≠ b.1) l)
    (hnew : ∀ q ∈ l, q.1 ≠ p.1) :
    List.Pairwise (fun a b => a.1 ≠ b.1) (putPair p l) := by
  induction l with
  | nil => simp [putPair]
  | cons q rest ih =>
    rcases List.pairwise_cons.mp hd with ⟨hhead, htail⟩
    unfold putPair
    rcases hc : pairCmp p q with h1 | h1 | h1
    · rw [List.pairwise_cons]
      constructor
      · intro x hx
        rcases List.mem_cons.mp hx with h | h
        · rw [h]
          exact fun he => hnew q (List.mem_cons_self q rest) he.symm
        · exact fun he => hnew x (List.mem_cons_of_mem q h) he.symm
      · exact hd
    · exact hd
    · rw [List.pairwise_cons]
      constructor
      · intro x hx
        rcases mem_putPair p x rest hx with h | h
        · rw [h]
          exact fun he => hnew q (List.mem_cons_self q rest) he
        · exact hhead x h
      · exact ih htail (fun x hx => hnew x (List.mem_cons_of_mem q hx))

theorem lookup_bucketsUpdate (name n : String)
    (f : List (Bytes × Bytes) → List (Bytes × Bytes))
    (l : List (String × List (Bytes × Bytes))) :
    (bucketsUpdate name f l).lookup n
      = if n = name then (l.lookup n).map f else l.lookup n := by
  induction l with
  | nil =>
    by_cases h : n = name <;> simp [bucketsUpdate, h]
  | cons e rest ih =>
    obtain ⟨m, b⟩ := e
    unfold bucketsUpdate
    by_cases hm : m = name
    · subst hm
      by_cases hn : n = m
      · subst hn
        simp [List.lookup]
      · have hne : (n == m) = false := by simp [hn]
        simp only [if_pos rfl, List.lookup, hne]
        simp [if_neg hn, ih]
    · rw [if_neg hm]
      by_cases hn : n = m
      · subst hn
        have h2 : n ≠ name := fun h => hm h
        simp [List.lookup, if_neg h2]
      · have hne : (n == m) = false := by simp [hn]
        simp only [List.lookup, hne]
        exact ih

/-! ### C5: unique key prefixes are unique across any operation sequence -/

/-- One relation operation. -/
inductive Cmd where
  | ins (obj : Row)
  | del (ops : List Op)

/-- Apply one operation, keeping the resulting state whether or not the
operation reported an error (the stores retain every write performed). -/
def applyCmd (dist : keyRange → Bytes) (pr : Schema) (st : RelState) : Cmd → RelState
  | .ins obj => (Insert pr st obj).2
  | .del ops => (Delete dist pr st ops).2

/-- Apply a sequence of operations. -/
def applyCmds (dist : keyRange → Bytes) (pr : Schema) (st : RelState)
    (cmds : List Cmd) : RelState :=
  cmds.foldl (applyCmd dist pr) st

/-- The inductive invariant for C5: every index bucket is sorted, and every
unique index bucket has pairwise-distinct key prefixes. -/
def UniqInv (pr : Schema) (st : RelState) : Prop :=
  (∀ nb ∈ st.indexB, pairSorted nb.2) ∧
  (∀ m ∈ pr.uniquesMeta, List.Pairwise (fun a b => a.1 ≠ b.1) (bucketOf st m.1))

theorem countP_le_one_of_keysDistinct (l : List (Bytes × Bytes)) (v : Bytes)
    (hd : List.Pairwise (fun a b => a.1 ≠ b.1) l) :
    l.countP (fun p => p.1 == v) ≤ 1 := by
  induction l with
  | nil => simp
  | cons q rest ih =>
    rcases List.pairwise_cons.mp hd with ⟨hhead, htail⟩
    rw [List.countP_cons]
    by_cases hq : (q.1 == v) = true
    · have hqv : q.1 = v := by simpa using hq
      have hzero : rest.countP (fun p => p.1 == v) = 0 := by
        rw [List.countP_eq_zero]
        intro x hx
        have := hhead x hx
        rw [hqv] at this
        simp [this.symm]
      rw [hq, hzero]
      simp
    · have hq0 : (q.1 == v) = false := by simpa using hq
      rw [hq0]
      simpa using ih htail

theorem pairwiseB_iff (r : α → α → Bool) (l : List α) :
    pairwiseB r l = true ↔ List.Pairwise (fun a b => r a b = true) l := by
  induction l with
  | nil => simp [pairwiseB]
  | cons x xs ih =>
    rw [pairwiseB, Bool.and_eq_true, List.all_eq_true, List.pairwise_cons, ih]

theorem lookup_mem {n : String} {b : β} :
    ∀ {l : List (String × β)}, l.lookup n = some b → (n, b) ∈ l := by
  intro l
  induction l with
  | nil => intro h; cases h
  | cons e rest ih =>
    intro h
    rw [List.lookup] at h
    by_cases he : (n == e.1) = true
    · rw [he] at h
      injection h with h2
      subst h2
      have hne : n = e.1 := by simpa using he
      rw [hne]
      exact List.mem_cons_self _ _
    · have he0 : (n == e.1) = false := by simpa using he
      rw [he0] at h
      exact List.mem_cons_of_mem e (ih h)

theorem mem_bucketsUpdate (name : String)
    (f : List (Bytes × Bytes) → List (Bytes × Bytes))
    (l : List (String × List (Bytes × Bytes))) :
    ∀ nb ∈ bucketsUpdate name f l, nb ∈ l ∨ ∃ b, (nb.1, b) ∈ l ∧ nb.2 = f b := by
  induction l with
  | nil => intro nb h; cases h
  | cons e rest ih =>
    obtain ⟨m, b0⟩ := e
    intro nb h
    unfold bucketsUpdate at h
    by_cases hm : m = name
    · rw [if_pos hm] at h
      rcases List.mem_cons.mp h with h2 | h2
      · subst h2
        exact Or.inr ⟨b0, List.mem_cons_self _ _, rfl⟩
      · exact Or.inl (List.mem_cons_of_mem _ h2)
    · rw [if_neg hm] at h
      rcases List.mem_cons.mp h with h2 | h2
      · exact Or.inl (by rw [h2]; exact List.mem_cons_self _ _)
      · rcases ih nb h2 with h3 | ⟨b, hb, hfb⟩
        · exact Or.inl (List.mem_cons_of_mem _ h3)
        · exact Or.inr ⟨b, List.mem_cons_of_mem _ hb, hfb⟩

theorem bucketsSorted_update (name : String)
    (f : List (Bytes × Bytes) → List (Bytes × Bytes))
    (l : List (String × List (Bytes × Bytes)))
    (hs : ∀ nb ∈ l, pairSorted nb.2)
    (hf : ∀ b, pairSorted b → pairSorted (f b)) :
    ∀ nb ∈ bucketsUpdate name f l, pairSorted nb.2 := by
  intro nb h
  rcases mem_bucketsUpdate name f l nb h with h2 | ⟨b, hb, hfb⟩
  · exact hs nb h2
  · rw [hfb]
    exact hf b (hs (nb.1, b) hb)

theorem filter_pairSorted (g : Bytes × Bytes → Bool) (b : List (Bytes × Bytes))
    (hs : pairSorted b) : pairSorted (b.filter g) :=
  hs.sublist (List.filter_sublist b)

theorem filter_keysDistinct (g : Bytes × Bytes → Bool) (b : List (Bytes × Bytes))
    (hd : List.Pairwise (fun a c => a.1 ≠ c.1) b) :
    List.Pairwise (fun a c => a.1 ≠ c.1) (b.filter g) :=
  hd.sublist (List.filter_sublist b)

theorem toRanges_single_eq_inv (f : String) (val : Val) (rs : Ranges)
    (h : toRanges [Op.eq f val] = .ok rs) :
    ∃ v, Marshal val = .ok v ∧ rs = [(f, ⟨some v, some v, true, true⟩)] := by
  rcases hm : Marshal val with e | v
  · rw [show toRanges [Op.eq f val] = .error e from by
      simp [toRanges, toRangesGo, Op.eq, hm]] at h
    cases h
  · rw [toRanges_eq_single f val v hm] at h
    injection h with h2
    exact ⟨v, rfl, h2.symm⟩

theorem bucketOf_eq_of_lookup {st : RelState} {n : String}
    {b : List (Bytes × Bytes)} (h : st.indexB.lookup n = some b) :
    bucketOf st n = b := by
  unfold bucketOf
  rw [h]
  rfl

theorem probeUniques_ok_guard (st : RelState) (obj : Row) :
    ∀ metas, probeUniques st obj metas = .ok () →
    (∀ nb ∈ st.indexB, pairSorted nb.2) →
    ∀ m ∈ metas, ∀ v, Marshal (.vList (keyPartsOf obj m.2)) = .ok v →
      ∀ q ∈ bucketOf st m.1, q.1 ≠ v := by
  intro metas
  induction metas with
  | nil =>
    intro _ _ m hm
    cases hm
  | cons m0 rest ih =>
    intro hok hs m hm v hv q hq
    obtain ⟨u0, cols0⟩ := m0
    unfold probeUniques at hok
    dsimp only at hok
    rcases htr : toRanges [Op.eq u0 (.vList (keyPartsOf obj cols0))] with e | rs
    · rw [htr] at hok
      cases hok
    · rcases toRanges_single_eq_inv _ _ _ htr with ⟨v0, hv0, hrs⟩
      subst hrs
      rw [htr] at hok
      have hlook : (List.lookup u0
          [(u0, (⟨some v0, some v0, true, true⟩ : keyRange))]).getD
            (⟨none, none, false, false⟩ : keyRange)
          = ⟨some v0, some v0, true, true⟩ := by simp
      dsimp only at hok
      rw [hlook] at hok
      rcases hig : idxGet st u0 ⟨some v0, some v0, true, true⟩ with e | L
      · rw [hig] at hok
        cases hok
      · rw [hig] at hok
        cases L with
        | cons x xs => cases hok
        | nil =>
          rcases List.mem_cons.mp hm with hm0 | hmr
          · -- the probed index itself
            subst hm0
            have hvv : v = v0 := by
              rw [hv0] at hv
              injection hv with h3
              exact h3.symm
            subst hvv
            unfold idxGet at hig
            rcases hbk : st.indexB.lookup u0 with _ | bucket
            · rw [hbk] at hig
              cases hig
            · rw [hbk] at hig
              have hsorted : pairSorted bucket := hs (u0, bucket) (lookup_mem hbk)
              injection hig with hscan
              rw [idxScan_seek_eq_filter _ bucket hsorted] at hscan
              have hfil : bucket.filter
                  (fun p => keyRange.contains ⟨some v, some v, true, true⟩ p.1) = [] :=
                List.map_eq_nil_iff.mp hscan
              rw [List.filter_eq_nil_iff] at hfil
              rw [bucketOf_eq_of_lookup hbk] at hq
              intro hqv
              exact hfil q hq (by rw [hqv]; exact (contains_eqRange v v).mpr rfl)
          · exact ih hok hs m hmr v hv q hq

theorem idxInsert_ok_inv {st : RelState} {n : String} {kp : List Val}
    {idB : Bytes} {fieldv : Bytes × Bytes} {st1 : RelState}
    (h : idxInsert st n kp idB = .ok (fieldv, st1)) :
    ∃ keyBytes, Marshal (.vList kp) = .ok keyBytes ∧ fieldv = (keyBytes, idB) ∧
      st1.seq = st.seq ∧ st1.dataB = st.dataB ∧ st1.reverseB = st.reverseB ∧
      st1.indexB = bucketsUpdate n (putPair fieldv) st.indexB := by
  unfold idxInsert at h
  rcases hl : st.indexB.lookup n with _ | b
  · rw [hl] at h
    cases h
  · rw [hl] at h
    rcases hm : Marshal (.vList kp) with e | kb
    · rw [hm] at h
      cases h
    · rw [hm] at h
      dsimp only at h
      injection h with h2
      have hf : fieldv = (kb, idB) := by
        have := congrArg Prod.fst h2
        exact this.symm
      have hs1 : st1 = { st with indexB := bucketsUpdate n (putPair (kb, idB)) st.indexB } := by
        have := congrArg Prod.snd h2
        exact this.symm
      subst hf
      subst hs1
      exact ⟨kb, rfl, rfl, rfl, rfl, rfl, rfl⟩

theorem insertIdxLoop_sorted (idB : Bytes) (obj : Row) :
    ∀ (metas : List (String × List String)) (st : RelState)
      (rev : List (String × (Bytes × Bytes))),
    (∀ nb ∈ st.indexB, pairSorted nb.2) →
    ∀ nb ∈ ((insertIdxLoop st idB obj rev metas).2).indexB, pairSorted nb.2 := by
  intro metas
  induction metas with
  | nil =>
    intro st rev hs
    exact hs
  | cons m0 rest ih =>
    intro st rev hs
    obtain ⟨n, kf⟩ := m0
    unfold insertIdxLoop
    rcases hi : idxInsert st n (keyPartsOf obj kf) idB with e | pr2
    · exact hs
    · obtain ⟨fieldv, st1⟩ := pr2
      rcases idxInsert_ok_inv hi with ⟨kb, _, _, _, _, _, hidx⟩
      refine ih st1 _ ?_
      rw [hidx]
      exact bucketsSorted_update n _ st.indexB hs (putPair_pairSorted fieldv)

theorem insertIdxLoop_lookup_other (idB : Bytes) (obj : Row) :
    ∀ (metas : List (String × List String)) (st : RelState)
      (rev : List (String × (Bytes × Bytes))) (u : String),
    (∀ m ∈ metas, m.1 ≠ u) →
    ((insertIdxLoop st idB obj rev metas).2).indexB.lookup u = st.indexB.lookup u := by
  intro metas
  induction metas with
  | nil =>
    intro st rev u _
    rfl
  | cons m0 rest ih =>
    intro st rev u hne
    obtain ⟨n, kf⟩ := m0
    unfold insertIdxLoop
    rcases hi : idxInsert st n (keyPartsOf obj kf) idB with e | pr2
    · rfl
    · obtain ⟨fieldv, st1⟩ := pr2
      rcases idxInsert_ok_inv hi with ⟨kb, _, _, _, _, _, hidx⟩
      rw [ih st1 _ u (fun m hm => hne m (List.mem_cons_of_mem _ hm)), hidx,
        lookup_bucketsUpdate]
      rw [if_neg (by
        intro he
        exact hne (n, kf) (List.mem_cons_self _ _) he.symm)]

/-- Preservation of the C5 invariant along the unique-index insert loop:
each step's bucket gained exactly the probed key, fresh by the probe
guarantee, and buckets of later uniques are untouched. -/
theorem insertUniqLoop_inv (pr : Schema) (idB : Bytes) (obj : Row) :
    ∀ (metas : List (String × List String)) (st : RelState)
      (rev : List (String × (Bytes × Bytes))),
    List.Pairwise (fun a b => a.1 ≠ b.1) metas →
    (∀ nb ∈ st.indexB, pairSorted nb.2) →
    (∀ m ∈ pr.uniquesMeta,
      List.Pairwise (fun a b => a.1 ≠ b.1) (bucketOf st m.1)) →
    (∀ m ∈ metas, ∀ v, Marshal (.vList (keyPartsOf obj m.2)) = .ok v →
      ∀ q ∈ bucketOf st m.1, q.1 ≠ v) →
    (∀ nb ∈ ((insertIdxLoop st idB obj rev metas).2).indexB, pairSorted nb.2) ∧
    (∀ m ∈ pr.uniquesMeta,
      List.Pairwise (fun a b => a.1 ≠ b.1)
        (bucketOf ((insertIdxLoop st idB obj rev metas).2) m.1)) := by
  intro metas
  induction metas with
  | nil =>
    intro st rev _ hs hd _
    exact ⟨hs, hd⟩
  | cons m0 rest ih =>
    intro st rev hnames hs hd hguard
    obtain ⟨n, kf⟩ := m0
    rcases List.pairwise_cons.mp hnames with ⟨hnhead, hntail⟩
    unfold insertIdxLoop
    rcases hi : idxInsert st n (keyPartsOf obj kf) idB with e | pr2
    · exact ⟨hs, hd⟩
    · obtain ⟨fieldv, st1⟩ := pr2
      rcases idxInsert_ok_inv hi with ⟨kb, hkb, hfv, _, _, _, hidx⟩
      have hs1 : ∀ nb ∈ st1.indexB, pairSorted nb.2 := by
        rw [hidx]
        exact bucketsSorted_update n _ st.indexB hs (putPair_pairSorted fieldv)
      have hbucket1 : ∀ u, u ≠ n → bucketOf st1 u = bucketOf st u := by
        intro u hu
        unfold bucketOf
        rw [hidx, lookup_bucketsUpdate, if_neg hu]
      have hbucketn : bucketOf st1 n
          = ((st.indexB.lookup n).map (putPair fieldv)).getD [] := by
        unfold bucketOf
        rw [hidx, lookup_bucketsUpdate, if_pos rfl]
      have hd1 : ∀ m ∈ pr.uniquesMeta,
          List.Pairwise (fun a b => a.1 ≠ b.1) (bucketOf st1 m.1) := by
        intro m hm
        by_cases hmn : m.1 = n
        · rw [hmn, hbucketn]
          rcases hlk : st.indexB.lookup n with _ | b
          · simp
          · have hb : bucketOf st n = b := bucketOf_eq_of_lookup hlk
            have hdn : List.Pairwise (fun a b => a.1 ≠ b.1) b := by
              rw [← hb, ← hmn]
              exact hd m hm
            have hfresh : ∀ q ∈ b, q.1 ≠ kb := by
              intro q hq
              have := hguard (n, kf) (List.mem_cons_self _ _) kb hkb q
              rw [hb] at this
              exact this hq
            rw [hfv]
            exact putPair_keysDistinct (kb, idB) b hdn hfresh
        · rw [hbucket1 m.1 hmn]
          exact hd m hm
      have hguard1 : ∀ m ∈ rest, ∀ v,
          Marshal (.vList (keyPartsOf obj m.2)) = .ok v →
          ∀ q ∈ bucketOf st1 m.1, q.1 ≠ v := by
        intro m hm v hv q hq
        have hmn : m.1 ≠ n := fun he => (hnhead m hm) he.symm
        rw [hbucket1 m.1 hmn] at hq
        exact hguard m (List.mem_cons_of_mem _ hm) v hv q hq
      exact ih st1 _ hntail hs1 hd1 hguard1

theorem schemaWF_names_pairwise (pr : Schema) (hwf : schemaWF pr = true) :
    List.Pairwise (fun a b => a ≠ b)
      ((pr.indexesMeta ++ pr.uniquesMeta).map (fun m => m.1)) := by
  unfold schemaWF at hwf
  rw [Bool.and_eq_true, Bool.and_eq_true, Bool.and_eq_true, Bool.and_eq_true] at hwf
  have h := hwf.1.1.1.2
  rw [distinctB, pairwiseB_iff] at h
  exact h.imp (fun hab => by simpa using hab)

theorem schemaWF_disjoint (pr : Schema) (hwf : schemaWF pr = true) :
    ∀ mi ∈ pr.indexesMeta, ∀ mu ∈ pr.uniquesMeta, mi.1 ≠ mu.1 := by
  intro mi hmi mu hmu
  have h := schemaWF_names_pairwise pr hwf
  rw [List.map_append, List.pairwise_append] at h
  exact h.2.2 mi.1 (List.mem_map_of_mem _ hmi) mu.1 (List.mem_map_of_mem _ hmu)

theorem schemaWF_uniques_pairwise (pr : Schema) (hwf : schemaWF pr = true) :
    List.Pairwise (fun a b => a.1 ≠ b.1) pr.uniquesMeta := by
  have h := schemaWF_names_pairwise pr hwf
  rw [List.map_append, List.pairwise_append] at h
  exact (List.pairwise_map.mp h.2.1)

theorem Insert_preserves_UniqInv (pr : Schema) (st : RelState) (obj : Row)
    (hwf : schemaWF pr = true) (hinv : UniqInv pr st) :
    UniqInv pr (Insert pr st obj).2 := by
  rcases hinv with ⟨hs, hd⟩
  unfold Insert
  by_cases hlen : obj.length ≠ pr.columns.length
  · rw [if_pos hlen]
    exact ⟨hs, hd⟩
  · rw [if_neg hlen]
    rcases hfind : pr.columns.find? (fun c => (obj.lookup c).isNone) with _ | c
    · dsimp only
      -- data insert leaves the index buckets untouched
      have hs1 : ∀ nb ∈ (dataInsert st obj).2.indexB, pairSorted nb.2 := hs
      have hd1 : ∀ m ∈ pr.uniquesMeta,
          List.Pairwise (fun a b => a.1 ≠ b.1) (bucketOf (dataInsert st obj).2 m.1) := hd
      rcases hp : probeUniques (dataInsert st obj).2 obj pr.uniquesMeta with e | u0
      · exact ⟨hs1, hd1⟩
      · have hguard := probeUniques_ok_guard (dataInsert st obj).2 obj
          pr.uniquesMeta hp hs1
        rcases hl1 : insertIdxLoop (dataInsert st obj).2 (dataInsert st obj).1 obj []
            pr.indexesMeta with ⟨r1, st2⟩
        have hs2 : ∀ nb ∈ st2.indexB, pairSorted nb.2 := by
          have := insertIdxLoop_sorted (dataInsert st obj).1 obj pr.indexesMeta
            (dataInsert st obj).2 [] hs1
          rw [hl1] at this
          exact this
        have hb2 : ∀ u ∈ pr.uniquesMeta, bucketOf st2 u.1 = bucketOf (dataInsert st obj).2 u.1 := by
          intro u hu
          have := insertIdxLoop_lookup_other (dataInsert st obj).1 obj pr.indexesMeta
            (dataInsert st obj).2 [] u.1
            (fun m hm => schemaWF_disjoint pr hwf m hm u hu)
          rw [hl1] at this
          unfold bucketOf
          rw [this]
        have hd2 : ∀ m ∈ pr.uniquesMeta,
            List.Pairwise (fun a b => a.1 ≠ b.1) (bucketOf st2 m.1) := by
          intro m hm
          rw [hb2 m hm]
          exact hd1 m hm
        have hguard2 : ∀ m ∈ pr.uniquesMeta, ∀ v,
            Marshal (.vList (keyPartsOf obj m.2)) = .ok v →
            ∀ q ∈ bucketOf st2 m.1, q.1 ≠ v := by
          intro m hm v hv q hq
          rw [hb2 m hm] at hq
          exact hguard m hm v hv q hq
        cases r1 with
        | error e => exact ⟨hs2, hd2⟩
        | ok rev1 =>
          rcases hl2 : insertIdxLoop st2 (dataInsert st obj).1 obj rev1
              pr.uniquesMeta with ⟨r2, st3⟩
          have hloop := insertUniqLoop_inv pr (dataInsert st obj).1 obj
            pr.uniquesMeta st2 rev1 (schemaWF_uniques_pairwise pr hwf)
            hs2 hd2 hguard2
          rw [hl2] at hloop
          dsimp only
          rw [hl2]
          cases r2 with
          | error e => exact hloop
          | ok rev2 => exact hloop
    · exact ⟨hs, hd⟩

theorem idxDelete_inv {st : RelState} {name : String} {kp : List Val}
    {fieldv : Bytes × Bytes} {st1 : RelState}
    (h : idxDelete st name kp fieldv = .ok st1) :
    st1.indexB = bucketsUpdate name (List.filter (· ≠ fieldv)) st.indexB := by
  unfold idxDelete at h
  rcases hl : st.indexB.lookup name with _ | b
  · rw [hl] at h
    cases h
  · rw [hl] at h
    injection h with h2
    rw [← h2]

/-- Any single-bucket update by a filter preserves the C5 invariant. -/
theorem filterUpdate_UniqInv (pr : Schema) (st : RelState) (name : String)
    (g : Bytes × Bytes → Bool) (hinv : UniqInv pr st) :
    UniqInv pr { st with indexB := bucketsUpdate name (List.filter g) st.indexB } := by
  rcases hinv with ⟨hs, hd⟩
  constructor
  · exact bucketsSorted_update name _ st.indexB hs (filter_pairSorted g)
  · intro m hm
    by_cases hmn : m.1 = name
    · show List.Pairwise (fun a b => a.1 ≠ b.1)
        ((List.lookup m.1 (bucketsUpdate name (List.filter g) st.indexB)).getD [])
      rw [lookup_bucketsUpdate, if_pos hmn]
      rcases hlk : st.indexB.lookup m.1 with _ | b
      · simp
      · have hb : bucketOf st m.1 = b := bucketOf_eq_of_lookup hlk
        have := hd m hm
        rw [hb] at this
        exact filter_keysDistinct g b this
    · show List.Pairwise (fun a b => a.1 ≠ b.1)
        ((List.lookup m.1 (bucketsUpdate name (List.filter g) st.indexB)).getD [])
      rw [lookup_bucketsUpdate, if_neg hmn]
      exact hd m hm

theorem deleteIdxLoop_UniqInv (pr : Schema) (e : entry) :
    ∀ (revl : List (String × (Bytes × Bytes))) (st : RelState),
    UniqInv pr st → UniqInv pr (deleteIdxLoop pr st e revl).2 := by
  intro revl
  induction revl with
  | nil =>
    intro st hinv
    exact hinv
  | cons rv rest ih =>
    intro st hinv
    obtain ⟨idxName, fieldv⟩ := rv
    unfold deleteIdxLoop
    rcases hlk : pr.indexesMeta.lookup idxName with _ | keyFields
    · exact hinv
    · dsimp only
      rcases hdel : idxDelete st idxName (keyPartsOf e.value keyFields) fieldv
          with er | st1
      · exact hinv
      · refine ih st1 ?_
        have hidx := idxDelete_inv hdel
        have : st1 = { st with indexB := st1.indexB } := by
          unfold idxDelete at hdel
          rcases hl2 : st.indexB.lookup idxName with _ | b
          · rw [hl2] at hdel
            cases hdel
          · rw [hl2] at hdel
            injection hdel with h2
            rw [← h2]
        rw [this, hidx]
        exact filterUpdate_UniqInv pr st idxName _ hinv

theorem deleteLoop_UniqInv (pr : Schema) :
    ∀ (entries : List (Except Err entry)) (st : RelState),
    UniqInv pr st → UniqInv pr (deleteLoop pr st entries).2 := by
  intro entries
  induction entries with
  | nil =>
    intro st hinv
    exact hinv
  | cons x rest ih =>
    intro st hinv
    cases x with
    | error er => exact hinv
    | ok e =>
      unfold deleteLoop
      rcases hde : deleteEntry pr st e with ⟨r, st1⟩
      have hinv1 : UniqInv pr st1 := by
        unfold deleteEntry at hde
        dsimp only at hde
        rcases hdl : deleteIdxLoop pr st e (revGet st e.id) with ⟨r0, st0⟩
        have hinv0 : UniqInv pr st0 := by
          have := deleteIdxLoop_UniqInv pr e (revGet st e.id) st hinv
          rw [hdl] at this
          exact this
        rw [hdl] at hde
        cases r0 with
        | error er0 =>
          injection hde with h1 h2
          rw [← h2]
          exact hinv0
        | ok u0 =>
          injection hde with h1 h2
          rw [← h2]
          -- revDelete and dataDelete leave indexB unchanged
          exact hinv0
      cases r with
      | error er =>
        exact hinv1
      | ok u1 =>
        exact ih st1 hinv1

theorem Delete_preserves_UniqInv (dist : keyRange → Bytes) (pr : Schema)
    (st : RelState) (ops : List Op) (hinv : UniqInv pr st) :
    UniqInv pr (Delete dist pr st ops).2 := by
  unfold Delete
  rcases hit : iter dist pr st ops with e | entries
  · exact hinv
  · exact deleteLoop_UniqInv pr entries st hinv

theorem initState_UniqInv (pr : Schema) : UniqInv pr (initState pr) := by
  constructor
  · intro nb hnb
    rcases List.mem_map.mp hnb with ⟨m, _, hm2⟩
    rw [← hm2]
    simp [pairSorted]
  · intro m _
    rcases hlk : (initState pr).indexB.lookup m.1 with _ | b
    · unfold bucketOf
      rw [hlk]
      simp
    · have hmem := lookup_mem hlk
      rcases List.mem_map.mp hmem with ⟨m2, _, hm2⟩
      unfold bucketOf
      rw [hlk]
      injection hm2 with h1 h2
      rw [← h2]
      simp

theorem applyCmds_UniqInv (dist : keyRange → Bytes) (pr : Schema)
    (hwf : schemaWF pr = true) :
    ∀ (cmds : List Cmd) (st : RelState), UniqInv pr st →
      UniqInv pr (applyCmds dist pr st cmds) := by
  intro cmds
  induction cmds with
  | nil =>
    intro st hinv
    exact hinv
  | cons c rest ih =>
    intro st hinv
    rw [applyCmds, List.foldl_cons]
    refine ih _ ?_
    cases c with
    | ins obj => exact Insert_preserves_UniqInv pr st obj hwf hinv
    | del ops => exact Delete_preserves_UniqInv dist pr st ops hinv

/-- C5: for every unique index of a well-formed relation, after any sequence
of `Insert` and `Delete` operations starting from the fresh relation state,
the number of IndexStore entries in that index's bucket whose key prefix
(the encoded key columns before the row id) equals any given value is 0 or 1:
`Insert` probes the unique index with the equality range before writing, and
`Delete` only removes entries. -/
theorem c5_unique_prefix_count (dist : keyRange → Bytes) (pr : Schema)
    (cmds : List Cmd) (u : String) (cols : List String) (v : Bytes)
    (hwf : schemaWF pr = true) (hu : (u, cols) ∈ pr.uniquesMeta) :
    (bucketOf (applyCmds dist pr (initState pr) cmds) u).countP
      (fun p => p.1 == v) ≤ 1 := by
  have hinv := applyCmds_UniqInv dist pr hwf cmds (initState pr) (initState_UniqInv pr)
  exact countP_le_one_of_keysDistinct _ v (hinv.2 (u, cols) hu)

/-- Witness for C5: the users relation after inserting both rows (the second
insert fails on the unique probe) and deleting by id, probed at the encoded
email key. -/
theorem c5_unique_prefix_count_witness :
    schemaWF usersSchema = true ∧
    (bucketOf (applyCmds distZero usersSchema (initState usersSchema)
        [Cmd.ins rowA, Cmd.ins rowB, Cmd.del [Op.eq ("id") (.vStr ("1"))]])
        ("email")).countP
      (fun p => p.1 == (0x33 :: escTerm [97, 64, 120])) ≤ 1 := by
  refine ⟨by decide, ?_⟩
  exact c5_unique_prefix_count distZero usersSchema
    [Cmd.ins rowA, Cmd.ins rowB, Cmd.del [Op.eq ("id") (.vStr ("1"))]]
    ("email") [("email")] (0x33 :: escTerm [97, 64, 120]) (by decide) (by decide)

/-! ### C7: the planner's index choice

Properties of Go `slices.MinFunc` under a comparator induced by a byte-string
key: the result is a member, is minimal, and among equals is the earliest. -/

theorem ordBeq_true_iff (o o2 : Ordering) : (o == o2) = true ↔ o = o2 := by
  cases o <;> cases o2 <;> decide

theorem minFunc_eq_or_lt_acc (f : α → Bytes) :
    ∀ (l : List α) (m : α),
    minFunc (fun a b => bytesCmp (f a) (f b)) m l = m ∨
      bytesCmp (f (minFunc (fun a b => bytesCmp (f a) (f b)) m l)) (f m) = .lt := by
  intro l
  induction l with
  | nil =>
    intro m
    exact Or.inl rfl
  | cons x xs ih =>
    intro m
    rw [minFunc]
    by_cases hx : (bytesCmp (f x) (f m) == Ordering.lt) = true
    · rw [if_pos hx]
      have hlt : bytesCmp (f x) (f m) = .lt := (ordBeq_true_iff _ _).mp hx
      rcases ih x with h | h
      · rw [h]
        exact Or.inr hlt
      · exact Or.inr (bytesCmp_lt_trans _ _ _ h hlt)
    · rw [if_neg hx]
      exact ih m

theorem minFunc_mem (f : α → Bytes) :
    ∀ (l : List α) (m : α),
    minFunc (fun a b => bytesCmp (f a) (f b)) m l = m ∨
      minFunc (fun a b => bytesCmp (f a) (f b)) m l ∈ l := by
  intro l
  induction l with
  | nil =>
    intro m
    exact Or.inl rfl
  | cons x xs ih =>
    intro m
    rw [minFunc]
    by_cases hx : (bytesCmp (f x) (f m) == Ordering.lt) = true
    · rw [if_pos hx]
      rcases ih x with h | h
      · exact Or.inr (by rw [h]; exact List.mem_cons_self x xs)
      · exact Or.inr (List.mem_cons_of_mem x h)
    · rw [if_neg hx]
      rcases ih m with h | h
      · exact Or.inl h
      · exact Or.inr (List.mem_cons_of_mem x h)

theorem minFunc_le_all (f : α → Bytes) :
    ∀ (l : List α) (m : α) (x : α), x = m ∨ x ∈ l →
      bytesCmp (f (minFunc (fun a b => bytesCmp (f a) (f b)) m l)) (f x) ≠ .gt := by
  intro l
  induction l with
  | nil =>
    intro m x hx
    rcases hx with heq | hx
    · rw [heq, minFunc, bytesCmp_self]
      simp
    · cases hx
  | cons y xs ih =>
    intro m x hx
    rw [minFunc]
    by_cases hy : (bytesCmp (f y) (f m) == Ordering.lt) = true
    · rw [if_pos hy]
      have hlt : bytesCmp (f y) (f m) = .lt := (ordBeq_true_iff _ _).mp hy
      rcases hx with heq | hx
      · have h1 := ih y y (Or.inl rfl)
        have h2 : bytesCmp
            (f (minFunc (fun a b => bytesCmp (f a) (f b)) y xs)) (f m) = .lt :=
          bytesCmp_lt_of_le_of_lt h1 hlt
        rw [heq, h2]
        simp
      · rcases List.mem_cons.mp hx with heq2 | hx2
        · rw [heq2]
          exact ih y y (Or.inl rfl)
        · exact ih y x (Or.inr hx2)
    · rw [if_neg hy]
      have hge : bytesCmp (f m) (f y) ≠ .gt := by
        intro hgt
        exact hy ((ordBeq_true_iff _ _).mpr (bytesCmp_lt_of_gt hgt))
      rcases hx with heq | hx
      · rw [heq]
        exact ih m m (Or.inl rfl)
      · rcases List.mem_cons.mp hx with heq2 | hx2
        · rw [heq2]
          exact bytesCmp_le_trans (ih m m (Or.inl rfl)) hge
        · exact ih m x (Or.inr hx2)

theorem minFunc_first_tie (f : α → Bytes) :
    ∀ (l : List α) (m : α) (l1 : List α) (j : α) (l2 : List α),
    m :: l = l1 ++ j :: l2 →
    bytesCmp (f (minFunc (fun a b => bytesCmp (f a) (f b)) m l)) (f j) = .eq →
    minFunc (fun a b => bytesCmp (f a) (f b)) m l = j ∨
      minFunc (fun a b => bytesCmp (f a) (f b)) m l ∈ l1 := by
  intro l
  induction l with
  | nil =>
    intro m l1 j l2 hsplit _
    cases l1 with
    | nil =>
      injection hsplit with h1 _
      exact Or.inl (by rw [minFunc, h1])
    | cons a l1x =>
      injection hsplit with h1 h2
      cases l1x <;> cases h2
  | cons x xs ih =>
    intro m l1 j l2 hsplit heq
    cases l1 with
    | nil =>
      injection hsplit with h1 h2
      subst h1
      rw [minFunc] at heq ⊢
      by_cases hx : (bytesCmp (f x) (f m) == Ordering.lt) = true
      · rw [if_pos hx] at heq ⊢
        have hlt : bytesCmp (f x) (f m) = .lt := (ordBeq_true_iff _ _).mp hx
        rcases minFunc_eq_or_lt_acc f xs x with h | h
        · rw [h, hlt] at heq
          cases heq
        · rw [bytesCmp_lt_trans _ _ _ h hlt] at heq
          cases heq
      · rw [if_neg hx] at heq ⊢
        rcases minFunc_eq_or_lt_acc f xs m with h | h
        · exact Or.inl h
        · rw [h] at heq
          cases heq
    | cons a l1x =>
      injection hsplit with h1 h2
      subst h1
      rw [minFunc] at heq ⊢
      by_cases hx : (bytesCmp (f x) (f m) == Ordering.lt) = true
      · rw [if_pos hx] at heq ⊢
        rcases ih x l1x j l2 h2 heq with h | h
        · exact Or.inl h
        · exact Or.inr (List.mem_cons_of_mem m h)
      · rw [if_neg hx] at heq ⊢
        cases l1x with
        | nil =>
          injection h2 with h3 h4
          subst h3
          rcases minFunc_eq_or_lt_acc f xs m with h | h
          · rw [h]
            exact Or.inr (List.mem_cons_self m [])
          · have hax : bytesCmp (f m) (f x) ≠ .gt := by
              intro hgt
              exact hx ((ordBeq_true_iff _ _).mpr (bytesCmp_lt_of_gt hgt))
            rw [bytesCmp_lt_of_lt_of_le h hax] at heq
            cases heq
        | cons b l1y =>
          injection h2 with h3 h4
          subst h3
          rcases ih m (m :: l1y) j l2 (by rw [h4]; rfl) heq with h | h
          · exact Or.inl h
          · rcases List.mem_cons.mp h with heq2 | h5
            · exact Or.inr (by rw [heq2]; exact List.mem_cons_self m (x :: l1y))
            · exact Or.inr (List.mem_cons_of_mem m (List.mem_cons_of_mem x h5))

/-- C7: when the compiled ranges mention at least one declared index, the
planner scans the index whose range has the byte-lexicographically smallest
`distance()` among the mentioned indexes — ties broken in favor of the index
appearing first in `allIndexes` iteration order (the order of
`selectedIdxs`) — and the iterator is the index path that applies `matchOps`
with that chosen index skipped during residual filtering. -/
theorem c7_planner_choice (dist : keyRange → Bytes) (pr : Schema) (st : RelState)
    (ops : List Op) (ranges : Ranges) (c : String) (rest : List String)
    (htr : toRanges ops = .ok ranges)
    (hsel : selectedIdxs pr ranges = c :: rest) :
    chooseIdx dist ranges c rest ∈ selectedIdxs pr ranges ∧
    (∀ j ∈ selectedIdxs pr ranges,
      bytesCmp (dist ((ranges.lookup (chooseIdx dist ranges c rest)).getD {}))
        (dist ((ranges.lookup j).getD {})) ≠ .gt) ∧
    (∀ l1 j l2, selectedIdxs pr ranges = l1 ++ j :: l2 →
      bytesCmp (dist ((ranges.lookup (chooseIdx dist ranges c rest)).getD {}))
        (dist ((ranges.lookup j).getD {})) = .eq →
      chooseIdx dist ranges c rest = j ∨ chooseIdx dist ranges c rest ∈ l1) ∧
    iter dist pr st ops
      = (match idxGet st (chooseIdx dist ranges c rest)
            ((ranges.lookup (chooseIdx dist ranges c rest)).getD {}) with
         | .error e => .error e
         | .ok ids => .ok (indexPath pr st ranges (chooseIdx dist ranges c rest) ids)) := by
  have hmem : chooseIdx dist ranges c rest ∈ selectedIdxs pr ranges := by
    rw [hsel]
    rcases minFunc_mem (fun n => dist ((ranges.lookup n).getD {})) rest c with h | h
    · rw [chooseIdx, h]
      exact List.mem_cons_self c rest
    · exact List.mem_cons_of_mem c h
  refine ⟨hmem, ?_, ?_, ?_⟩
  · intro j hj
    rw [hsel] at hj
    rcases List.mem_cons.mp hj with rfl | hj2
    · exact minFunc_le_all (fun n => dist ((ranges.lookup n).getD {})) rest j j (Or.inl rfl)
    · exact minFunc_le_all (fun n => dist ((ranges.lookup n).getD {})) rest c j (Or.inr hj2)
  · intro l1 j l2 hsplit heq
    rw [hsel] at hsplit
    exact minFunc_first_tie (fun n => dist ((ranges.lookup n).getD {})) rest c
      l1 j l2 hsplit heq
  · unfold iter
    rw [htr]
    dsimp only
    rw [hsel]

/-- Witness for C7: a two-index relation with predicates on both indexes. -/
theorem c7_planner_choice_witness :
    toRanges [Op.ge ("a") (.vInt 1), Op.ge ("b") (.vInt 0)]
      = .ok [(("a"), ⟨some (encNonneg 1), none, true, false⟩),
             (("b"), ⟨some (encNonneg 0), none, true, false⟩)] ∧
    selectedIdxs ⟨["a", "b"], [(("a"), [("a")]), (("b"), [("b")])], [], ["a", "b"], "t2"⟩
        [(("a"), ⟨some (encNonneg 1), none, true, false⟩),
         (("b"), ⟨some (encNonneg 0), none, true, false⟩)] = ["a", "b"] ∧
    chooseIdx distZero
        [(("a"), ⟨some (encNonneg 1), none, true, false⟩),
         (("b"), ⟨some (encNonneg 0), none, true, false⟩)] ("a") [("b")]
      ∈ selectedIdxs ⟨["a", "b"], [(("a"), [("a")]), (("b"), [("b")])], [], ["a", "b"], "t2"⟩
        [(("a"), ⟨some (encNonneg 1), none, true, false⟩),
         (("b"), ⟨some (encNonneg 0), none, true, false⟩)] := by
  refine ⟨rfl, rfl, ?_⟩
  exact (c7_planner_choice distZero
    ⟨["a", "b"], [(("a"), [("a")]), (("b"), [("b")])], [], ["a", "b"], "t2"⟩
    (initState ⟨["a", "b"], [(("a"), [("a")]), (("b"), [("b")])], [], ["a", "b"], "t2"⟩)
    [Op.ge ("a") (.vInt 1), Op.ge ("b") (.vInt 0)]
    [(("a"), ⟨some (encNonneg 1), none, true, false⟩),
     (("b"), ⟨some (encNonneg 0), none, true, false⟩)]
    ("a") [("b")] rfl rfl).1

/-! ### C6: Insert validates before touching storage -/

/-- C6: a row whose field count differs from the column count fails with
`FieldCountMismatch`, and a row of the right size lacking a declared column
fails with `MissingField` on the first such column; in both cases the state —
all three buckets and the row-id sequence — is returned untouched. -/
theorem c6_insert_validates_before_storage (pr : Schema) (st : RelState) (obj : Row) :
    (obj.length ≠ pr.columns.length →
      Insert pr st obj = (.error .objectFieldCountMismatch, st)) ∧
    (∀ c, obj.length = pr.columns.length →
      pr.columns.find? (fun c0 => (obj.lookup c0).isNone) = some c →
      Insert pr st obj = (.error (.objectMissingField c), st)) := by
  constructor
  · intro h
    simp [Insert, h]
  · intro c hlen hfind
    simp [Insert, hlen, hfind]

/-- Witness for C6 at concrete inputs: an empty row against a one-column
schema, and a two-field row missing column `b`. -/
theorem c6_insert_validates_before_storage_witness :
    Insert ⟨["a"], [], [], [], "t"⟩ (initState ⟨["a"], [], [], [], "t"⟩) []
      = (.error .objectFieldCountMismatch, initState ⟨["a"], [], [], [], "t"⟩) ∧
    Insert ⟨["a", "b"], [], [], [], "t"⟩ (initState ⟨["a", "b"], [], [], [], "t"⟩)
        [("a", .vInt 0), ("c", .vInt 1)]
      = (.error (.objectMissingField ("b")), initState ⟨["a", "b"], [], [], [], "t"⟩) := by
  constructor
  · exact (c6_insert_validates_before_storage _ _ _).1 (by decide)
  · exact (c6_insert_validates_before_storage _ _ _).2 ("b") (by decide) (by decide)

/-! ### C2: Insert then Delete by primary key -/

/-- C2 (code behavior at the failing input): on `users` with unique `email`,
`Insert(rowA)` succeeds, but `Delete(Eq("id","1"))` fails with
`IndexMetadataNotFound("email")` — `Delete` reconstructs index keys through
`indexesMeta` only, while `Insert` records unique-index keys in the reverse
index too — and the data entry of the inserted row is still present, so the
relation is not returned to its pre-insert state. -/
theorem c2_delete_unique_index_bug_eval :
    (Insert usersSchema (initState usersSchema) rowA).1 = .ok () ∧
    (Delete distZero usersSchema usersSt1 [Op.eq ("id") (.vStr ("1"))]).1
      = .error (.indexMetadataNotFound ("email")) ∧
    (Delete distZero usersSchema usersSt1 [Op.eq ("id") (.vStr ("1"))]).2.dataB.length = 1 ∧
    (initState usersSchema).dataB.length = 0 := by
  exact ⟨rfl, rfl, rfl, rfl⟩

/-! ### C4: Ne is compiled to the full range and never re-checked -/

/-- C4 (code behavior at the failing input): on the one-row relation with
`f = 1`, `Select(Ne("f", 1))` yields that very row — `Ne` compiles to the
full range, and residual filtering only re-tests ranges, so rows equal to the
`Ne` value are not filtered out. -/
theorem c4_ne_unenforced_eval :
    Select distZero neSchema neSt [Op.ne ("f") (.vInt 1)]
      = .ok [.ok [(("f"), Val.vInt 1)]] := by
  exact rfl

/-! ### C1: planner equivalence with a full scan

The spec's reference semantics for `Select`: a full scan of the DataStore with
every compiled range applied as a residual filter by `matchOps` — the shape of
the code's own no-index path, whose skip parameter is the empty string. -/

/-- Modelled from the spec: the reference result of `Select(ops…)` — compile
the ranges, full-scan the data store, and residual-filter every row with
`matchOps`, skipping no range. -/
def fullScanSelect (pr : Schema) (st : RelState) (ops : List Op) :
    Except Err (List (Except Err Row)) :=
  match toRanges ops with
  | .error e => .error e
  | .ok ranges =>
    .ok ((scanFilter pr ranges ("") (dataGet fullRange st.dataB)).map toRowYield)

/-- The successfully yielded rows of a `Select`-shaped result: an iteration
error yields nothing, and per-row errors yield no row. -/
def okRows : Except Err (List (Except Err Row)) → List Row
  | .error _ => []
  | .ok l => l.filterMap (fun x => match x with | .ok r => some r | .error _ => none)

/-- The row of a successful `iter` yield. -/
def okE : Except Err entry → Option Row
  | .ok e => some e.value
  | .error _ => none

theorem filterMap_toRowYield (l : List (Except Err entry)) :
    (l.map toRowYield).filterMap
        (fun x => match x with | .ok r => some r | .error _ => none)
      = l.filterMap okE := by
  induction l with
  | nil => rfl
  | cons x t ih =>
    cases x with
    | error e =>
      rw [List.map_cons, List.filterMap_cons, List.filterMap_cons]
      dsimp only [toRowYield, okE]
      exact ih
    | ok en =>
      rw [List.map_cons, List.filterMap_cons, List.filterMap_cons]
      dsimp only [toRowYield, okE]
      rw [ih]

theorem okRows_select (dist : keyRange → Bytes) (pr : Schema) (st : RelState)
    (ops : List Op) (l : List (Except Err entry))
    (h : iter dist pr st ops = .ok l) :
    okRows (Select dist pr st ops) = l.filterMap okE := by
  unfold Select
  rw [h]
  dsimp only
  exact filterMap_toRowYield l

theorem okRows_fullScan (pr : Schema) (st : RelState) (ops : List Op)
    (ranges : Ranges) (h : toRanges ops = .ok ranges) :
    okRows (fullScanSelect pr st ops)
      = (scanFilter pr ranges ("") (dataGet fullRange st.dataB)).filterMap okE := by
  unfold fullScanSelect
  rw [h]
  dsimp only
  exact filterMap_toRowYield _

theorem dataGet_fullRange (l : List (Bytes × Row)) : dataGet fullRange l = l := by
  show ((l.takeWhile (fun e => fullRange.lessThanEnd e.1)).filter
    (fun e => fullRange.contains e.1)) = l
  induction l with
  | nil => rfl
  | cons x t ih =>
    rw [List.takeWhile_cons]
    simp only [show (fun e : Bytes × Row => fullRange.lessThanEnd e.1) x = true from rfl,
      if_true]
    rw [List.filter_cons]
    simp only [show (fun e : Bytes × Row => fullRange.contains e.1) x = true from rfl,
      if_true]
    rw [ih]

theorem scanFilter_cons (pr : Schema) (ranges : Ranges) (skip : String)
    (x : Bytes × Row) (t : List (Bytes × Row)) :
    scanFilter pr ranges skip (x :: t)
      = (match matchOps pr x.2 ranges skip with
         | .error err => [.error err]
         | .ok true => [.ok ⟨x.1, x.2⟩]
         | .ok false => []) ++ scanFilter pr ranges skip t := by
  simp [scanFilter]

theorem mem_scanFilter_ok (pr : Schema) (ranges : Ranges) (skip : String)
    (entries : List (Bytes × Row)) (row : Row) :
    row ∈ (scanFilter pr ranges skip entries).filterMap okE ↔
      ∃ e ∈ entries, matchOps pr e.2 ranges skip = .ok true ∧ row = e.2 := by
  induction entries with
  | nil => simp [scanFilter]
  | cons x t ih =>
    rw [scanFilter_cons, List.filterMap_append, List.mem_append, ih]
    rcases hm : matchOps pr x.2 ranges skip with er | b
    · simp [okE, hm]
    · cases b
      · simp [okE, hm]
      · simp [okE, hm]

theorem indexPath_cons (pr : Schema) (st : RelState) (ranges : Ranges)
    (chosen : String) (id : Bytes) (ids : List Bytes) :
    indexPath pr st ranges chosen (id :: ids)
      = scanFilter pr ranges chosen (dataGet (singleRange id) st.dataB)
        ++ indexPath pr st ranges chosen ids := by
  simp [indexPath]

theorem mem_indexPath_ok (pr : Schema) (st : RelState) (ranges : Ranges)
    (chosen : String) (ids : List Bytes) (row : Row) :
    row ∈ (indexPath pr st ranges chosen ids).filterMap okE ↔
      ∃ id ∈ ids, ∃ e ∈ dataGet (singleRange id) st.dataB,
        matchOps pr e.2 ranges chosen = .ok true ∧ row = e.2 := by
  induction ids with
  | nil => simp [indexPath]
  | cons id t ih =>
    rw [indexPath_cons, List.filterMap_append, List.mem_append, ih,
      mem_scanFilter_ok]
    simp

theorem mem_dataGet_single (id : Bytes) (bucket : List (Bytes × Row))
    (hs : dataSorted bucket) (e : Bytes × Row) :
    e ∈ dataGet (singleRange id) bucket ↔ e ∈ bucket ∧ e.1 = id := by
  rw [dataGet_eq_filter _ _ hs rfl, List.mem_filter]
  constructor
  · rintro ⟨h1, h2⟩
    exact ⟨h1, (contains_eqRange id e.1).mp h2⟩
  · rintro ⟨h1, h2⟩
    exact ⟨h1, (contains_eqRange id e.1).mpr h2⟩

theorem pairwise_fst_inj {α β : Type} {f : α → β} {l : List α}
    (h : List.Pairwise (fun a b => f a ≠ f b) l) :
    ∀ p ∈ l, ∀ q ∈ l, f p = f q → p = q := by
  induction l with
  | nil =>
    intro p hp
    exact absurd hp (List.not_mem_nil p)
  | cons a t ih =>
    rw [List.pairwise_cons] at h
    intro p hp q hq hpq
    rcases List.mem_cons.mp hp with rfl | hp2 <;> rcases List.mem_cons.mp hq with rfl | hq2
    · rfl
    · exact absurd hpq (h.1 q hq2)
    · exact absurd hpq.symm (h.1 p hp2)
    · exact ih h.2 p hp2 q hq2 hpq

theorem dataB_key_inj {l : List (Bytes × Row)} (h : dataSorted l) :
    ∀ p ∈ l, ∀ q ∈ l, p.1 = q.1 → p = q := by
  apply pairwise_fst_inj (f := fun e : Bytes × Row => e.1)
  refine h.imp ?_
  intro a b hab heq
  rw [heq] at hab
  rw [bytesLt_iff] at hab
  exact absurd hab (bytesCmp_lt_irrefl _)

theorem rangesUpdate_names (rs : Ranges) (f : String) (r : keyRange) :
    ∀ p ∈ rangesUpdate rs f r, p.1 = f ∨ ∃ q ∈ rs, p.1 = q.1 := by
  induction rs with
  | nil =>
    intro p hp
    rcases List.mem_cons.mp hp with rfl | hp2
    · exact Or.inl rfl
    · exact absurd hp2 (List.not_mem_nil p)
  | cons g rest ih =>
    obtain ⟨gn, gr⟩ := g
    intro p hp
    rw [rangesUpdate] at hp
    by_cases hg : gn = f
    · rw [if_pos hg] at hp
      rcases List.mem_cons.mp hp with rfl | hp2
      · exact Or.inl hg
      · exact Or.inr ⟨p, List.mem_cons_of_mem (gn, gr) hp2, rfl⟩
    · rw [if_neg hg] at hp
      rcases List.mem_cons.mp hp with rfl | hp2
      · exact Or.inr ⟨(gn, gr), List.mem_cons_self _ _, rfl⟩
      · rcases ih p hp2 with h1 | ⟨q, hq, h2⟩
        · exact Or.inl h1
        · exact Or.inr ⟨q, List.mem_cons_of_mem (gn, gr) hq, h2⟩

theorem rangesUpdate_nodup (rs : Ranges) (f : String) (r : keyRange)
    (h : List.Pairwise (fun a b : String × keyRange => a.1 ≠ b.1) rs) :
    List.Pairwise (fun a b : String × keyRange => a.1 ≠ b.1) (rangesUpdate rs f r) := by
  induction rs with
  | nil =>
    exact List.pairwise_cons.mpr ⟨fun b hb => absurd hb (List.not_mem_nil b),
      List.Pairwise.nil⟩
  | cons g rest ih =>
    obtain ⟨gn, gr⟩ := g
    rw [List.pairwise_cons] at h
    obtain ⟨h1, h2⟩ := h
    rw [rangesUpdate]
    by_cases hg : gn = f
    · rw [if_pos hg]
      exact List.pairwise_cons.mpr ⟨h1, h2⟩
    · rw [if_neg hg]
      refine List.pairwise_cons.mpr ⟨?_, ih h2⟩
      intro b hb
      rcases rangesUpdate_names rest f r b hb with hbf | ⟨q, hq, hbq⟩
      · rw [hbf]
        exact hg
      · rw [hbq]
        exact h1 q hq

theorem toRangesGo_names :
    ∀ (ops : List Op) (rs res : Ranges), toRangesGo rs ops = .ok res →
    ∀ p ∈ res, (∃ q ∈ rs, p.1 = q.1) ∨ ∃ o ∈ ops, p.1 = o.field := by
  intro ops
  induction ops with
  | nil =>
    intro rs res h p hp
    injection h with h2
    subst h2
    exact Or.inl ⟨p, hp, rfl⟩
  | cons o t ih =>
    intro rs res h p hp
    rw [toRangesGo] at h
    rcases hm : Marshal o.value with e | v
    · rw [hm] at h
      cases h
    · rw [hm] at h
      rcases ih _ _ h p hp with ⟨q, hq, hpq⟩ | ⟨o2, ho2, hp2⟩
      · rcases rangesUpdate_names rs o.field (opRange o.type v) q hq with h1 | ⟨q2, hq2, h2⟩
        · exact Or.inr ⟨o, List.mem_cons_self _ _, hpq.trans h1⟩
        · exact Or.inl ⟨q2, hq2, hpq.trans h2⟩
      · exact Or.inr ⟨o2, List.mem_cons_of_mem o ho2, hp2⟩

theorem toRangesGo_nodup :
    ∀ (ops : List Op) (rs res : Ranges), toRangesGo rs ops = .ok res →
    List.Pairwise (fun a b : String × keyRange => a.1 ≠ b.1) rs →
    List.Pairwise (fun a b : String × keyRange => a.1 ≠ b.1) res := by
  intro ops
  induction ops with
  | nil =>
    intro rs res h hp
    injection h with h2
    subst h2
    exact hp
  | cons o t ih =>
    intro rs res h hp
    rw [toRangesGo] at h
    rcases hm : Marshal o.value with e | v
    · rw [hm] at h
      cases h
    · rw [hm] at h
      exact ih _ _ h (rangesUpdate_nodup rs o.field (opRange o.type v) hp)

theorem toRanges_names {ops : List Op} {ranges : Ranges}
    (h : toRanges ops = .ok ranges) :
    ∀ p ∈ ranges, ∃ o ∈ ops, p.1 = o.field := by
  intro p hp
  rcases toRangesGo_names ops [] ranges h p hp with ⟨q, hq, _⟩ | h2
  · exact absurd hq (List.not_mem_nil q)
  · exact h2

theorem toRanges_nodup {ops : List Op} {ranges : Ranges}
    (h : toRanges ops = .ok ranges) :
    List.Pairwise (fun a b : String × keyRange => a.1 ≠ b.1) ranges :=
  toRangesGo_nodup ops [] ranges h List.Pairwise.nil

/-- A range name `matchOps` can resolve against a row: either a field of the
row or a declared index. -/
def goodNameB (pr : Schema) (r : Row) (n : String) : Bool :=
  (r.lookup n).isSome || (metaLookup pr n).isSome

/-- The bytes `matchOps` tests a range against, as a total function: the
encoded row field if present, else the encoded key tuple of the index of that
name. -/
def fieldBytesD (pr : Schema) (r : Row) (n : String) : Bytes :=
  match r.lookup n with
  | some v => match Marshal v with | .ok b => b | .error _ => []
  | none => encKeyD ((metaLookup pr n).getD []) r

theorem lookup_cons_ne {β : Type} (n k : String) (v : β) (l : List (String × β))
    (h : n ≠ k) : ((k, v) :: l).lookup n = l.lookup n := by
  rw [List.lookup]
  have hb : (n == k) = false := by simpa using h
  rw [hb]

theorem lookup_cons_self {β : Type} (k : String) (v : β) (l : List (String × β)) :
    ((k, v) :: l).lookup k = some v := by
  rw [List.lookup]
  simp

theorem rowOk_parts (pr : Schema) (r : Row) (h : rowOk pr r = true) :
    (∀ c ∈ pr.columns, (r.lookup c).isSome = true) ∧
    (∀ p ∈ r, p.1 ∈ pr.columns) ∧
    (∀ p ∈ r, isOkB (encScalar p.2) = true) := by
  unfold rowOk at h
  rw [Bool.and_eq_true, Bool.and_eq_true, Bool.and_eq_true] at h
  obtain ⟨⟨⟨_, h2⟩, h3⟩, h4⟩ := h
  refine ⟨fun c hc => List.all_eq_true.mp h2 c hc, ?_, fun p hp => List.all_eq_true.mp h4 p hp⟩
  intro p hp
  exact List.mem_of_elem_eq_true (List.all_eq_true.mp h3 p hp)

theorem rowOk_col_val (pr : Schema) (r : Row) (h : rowOk pr r = true)
    (c : String) (hc : c ∈ pr.columns) :
    ∃ v, r.lookup c = some v ∧ isOkB (encScalar v) = true := by
  obtain ⟨h1, _, h3⟩ := rowOk_parts pr r h
  have hs := h1 c hc
  rcases hl : r.lookup c with _ | v
  · rw [hl] at hs
    cases hs
  · exact ⟨v, rfl, h3 (c, v) (lookup_mem hl)⟩

theorem metaLookup_idx {pr : Schema} {n : String} {cols : List String}
    (h : pr.indexesMeta.lookup n = some cols) : metaLookup pr n = some cols := by
  unfold metaLookup
  rw [h]
  rfl

theorem metaLookup_uniq {pr : Schema} {n : String}
    (hi : pr.indexesMeta.lookup n = none) :
    metaLookup pr n = pr.uniquesMeta.lookup n := by
  unfold metaLookup
  rw [hi]
  rfl

theorem metaLookup_none_parts {pr : Schema} {n : String}
    (h : metaLookup pr n = none) :
    pr.indexesMeta.lookup n = none ∧ pr.uniquesMeta.lookup n = none := by
  unfold metaLookup at h
  rcases hi : pr.indexesMeta.lookup n with _ | c
  · rw [hi] at h
    exact ⟨rfl, h⟩
  · rw [hi] at h
    cases h

theorem metaLookup_mem {pr : Schema} {n : String} {cols : List String}
    (h : metaLookup pr n = some cols) :
    (n, cols) ∈ pr.indexesMeta ++ pr.uniquesMeta := by
  unfold metaLookup at h
  rcases hi : pr.indexesMeta.lookup n with _ | c
  · rw [hi] at h
    exact List.mem_append_right _ (lookup_mem h)
  · rw [hi] at h
    have h2 : c = cols := by
      have h3 : (some c : Option (List String)) = some cols := h
      injection h3
    subst h2
    exact List.mem_append_left _ (lookup_mem hi)

theorem schemaWF_parts (pr : Schema) (h : schemaWF pr = true) :
    (∀ m ∈ pr.indexesMeta ++ pr.uniquesMeta, ∀ c ∈ m.2, c ∈ pr.columns) ∧
    (∀ m ∈ pr.indexesMeta ++ pr.uniquesMeta, m.1 ∈ pr.columns → m.2 = [m.1]) ∧
    (∀ n ∈ pr.allIndexes, (metaLookup pr n).isSome = true) := by
  unfold schemaWF at h
  rw [Bool.and_eq_true, Bool.and_eq_true, Bool.and_eq_true, Bool.and_eq_true] at h
  obtain ⟨⟨⟨⟨_, _⟩, _⟩, h4⟩, h5⟩ := h
  refine ⟨?_, ?_, fun n hn => List.all_eq_true.mp h4 n hn⟩
  · intro m hm c hc
    have hz := List.all_eq_true.mp h5 m hm
    rw [Bool.and_eq_true] at hz
    exact List.mem_of_elem_eq_true (List.all_eq_true.mp hz.1 c hc)
  · intro m hm hmem
    have hz := List.all_eq_true.mp h5 m hm
    rw [Bool.and_eq_true] at hz
    have h7 := hz.2
    have h8 : pr.columns.contains m.1 = true := List.elem_eq_true_of_mem hmem
    rw [h8] at h7
    simpa using h7

theorem marshal_scalar_ok (v : Val) (h : isOkB (encScalar v) = true) :
    Marshal v = encScalar v := by
  cases v
  · rfl
  · rfl
  · rfl
  · exact absurd h (by simp [encScalar, isOkB])
  · exact absurd h (by simp [encScalar, isOkB])

theorem mapM_encScalar_ok (vs : List Val)
    (h : ∀ v ∈ vs, isOkB (encScalar v) = true) :
    ∃ bs, vs.mapM encScalar = .ok bs := by
  induction vs with
  | nil => exact ⟨[], rfl⟩
  | cons v t ih =>
    obtain ⟨b, hb⟩ : ∃ b, encScalar v = .ok b := by
      have hv := h v (List.mem_cons_self _ _)
      rcases he : encScalar v with e | b
      · rw [he] at hv
        cases hv
      · exact ⟨b, rfl⟩
    obtain ⟨bs, hbs⟩ := ih (fun v2 hv2 => h v2 (List.mem_cons_of_mem _ hv2))
    refine ⟨b :: bs, ?_⟩
    rw [List.mapM_cons, hb, hbs]
    rfl

theorem encKey_ok (r : Row) (cols : List String)
    (hv : ∀ c ∈ cols, ∃ v, r.lookup c = some v ∧ isOkB (encScalar v) = true) :
    Marshal (.vList (keyPartsOf r cols)) = .ok (encKeyD cols r) := by
  have h2 : ∀ v ∈ keyPartsOf r cols, isOkB (encScalar v) = true := by
    intro v hvmem
    unfold keyPartsOf at hvmem
    rcases List.mem_map.mp hvmem with ⟨c, hc, hcv⟩
    obtain ⟨v2, hl, hok⟩ := hv c hc
    rw [hl] at hcv
    rw [← hcv]
    simpa using hok
  obtain ⟨bs, hbs⟩ := mapM_encScalar_ok _ h2
  have hm : Marshal (.vList (keyPartsOf r cols)) = .ok bs.flatten := by
    show (List.mapM encScalar (keyPartsOf r cols)).map List.flatten = .ok bs.flatten
    rw [hbs]
    rfl
  rw [hm]
  unfold encKeyD
  rw [hm]

theorem fieldBytes_val (pr : Schema) (r : Row) (n : String) (v : Val)
    (hl : r.lookup n = some v) (hok : isOkB (encScalar v) = true) :
    Marshal v = .ok (fieldBytesD pr r n) := by
  have hm : Marshal v = encScalar v := marshal_scalar_ok v hok
  rcases he : encScalar v with e | b
  · rw [he] at hok
    cases hok
  · have hfb : fieldBytesD pr r n = b := by
      unfold fieldBytesD
      rw [hl]
      dsimp only
      rw [hm, he]
    rw [hfb, hm, he]

theorem fieldBytes_comp (pr : Schema) (r : Row) (n : String) (cols : List String)
    (hl : r.lookup n = none) (hml : metaLookup pr n = some cols) :
    fieldBytesD pr r n = encKeyD cols r := by
  unfold fieldBytesD
  rw [hl, hml]
  rfl

theorem colsParts_ok (r : Row) (cols : List String)
    (h : ∀ c ∈ cols, (r.lookup c).isSome = true) :
    colsParts r cols = .ok (keyPartsOf r cols) := by
  induction cols with
  | nil => rfl
  | cons c t ih =>
    rcases hl : r.lookup c with _ | v
    · have hc := h c (List.mem_cons_self _ _)
      rw [hl] at hc
      cases hc
    · rw [colsParts, hl]
      dsimp only
      rw [ih (fun c2 hc2 => h c2 (List.mem_cons_of_mem _ hc2))]
      dsimp only
      unfold keyPartsOf
      rw [List.map_cons, hl]
      rfl

theorem buildComposite_cons (pr : Schema) (r : Row) (skip k : String)
    (kr0 : keyRange) (rest : Ranges) :
    buildComposite pr r skip ((k, kr0) :: rest)
      = if k = skip then buildComposite pr r skip rest
        else if (r.lookup k).isSome then buildComposite pr r skip rest
        else
          match pr.indexesMeta.lookup k with
          | some cols =>
            match colsParts r cols with
            | .error e => .error e
            | .ok parts =>
              match buildComposite pr r skip rest with
              | .error e => .error e
              | .ok comp => .ok ((k, Val.vList parts) :: comp)
          | none =>
            match pr.uniquesMeta.lookup k with
            | some cols =>
              match colsParts r cols with
              | .error e => .error e
              | .ok parts =>
                match buildComposite pr r skip rest with
                | .error e => .error e
                | .ok comp => .ok ((k, Val.vList parts) :: comp)
            | none => .error (.fieldNotFoundInColumns k) := rfl

theorem buildComposite_ok (pr : Schema) (r : Row) (skip : String)
    (hcols : ∀ n cols, metaLookup pr n = some cols →
      ∀ c ∈ cols, (r.lookup c).isSome = true) :
    ∀ ranges : Ranges,
    List.Pairwise (fun a b : String × keyRange => a.1 ≠ b.1) ranges →
    (∀ p ∈ ranges, p.1 = skip ∨ goodNameB pr r p.1 = true) →
    ∃ comp, buildComposite pr r skip ranges = .ok comp ∧
      (∀ n, (r.lookup n).isSome = true → comp.lookup n = none) ∧
      (∀ p ∈ ranges, p.1 ≠ skip → r.lookup p.1 = none →
        ∀ cols, metaLookup pr p.1 = some cols →
          comp.lookup p.1 = some (.vList (keyPartsOf r cols))) := by
  intro ranges
  induction ranges with
  | nil =>
    intro _ _
    exact ⟨[], rfl, fun n _ => rfl, fun p hp => absurd hp (List.not_mem_nil p)⟩
  | cons q rest ih =>
    obtain ⟨k, kr0⟩ := q
    intro hnd hgood
    rw [List.pairwise_cons] at hnd
    obtain ⟨hq, hrest⟩ := hnd
    obtain ⟨comp, hc, hf1, hf2⟩ :=
      ih hrest (fun p hp => hgood p (List.mem_cons_of_mem _ hp))
    by_cases hs : k = skip
    · refine ⟨comp, ?_, hf1, ?_⟩
      · rw [buildComposite_cons, if_pos hs, hc]
      · intro p hp hps hpl cols hml
        rcases List.mem_cons.mp hp with rfl | hp2
        · exact absurd hs hps
        · exact hf2 p hp2 hps hpl cols hml
    · rcases hl : r.lookup k with _ | v
      · have hgb : goodNameB pr r k = true := by
          rcases hgood (k, kr0) (List.mem_cons_self _ _) with h1 | h1
          · exact absurd h1 hs
          · exact h1
        have hmls : (metaLookup pr k).isSome = true := by
          unfold goodNameB at hgb
          rw [hl] at hgb
          simpa using hgb
        rcases hml : metaLookup pr k with _ | cols
        · rw [hml] at hmls
          cases hmls
        have hcp : colsParts r cols = .ok (keyPartsOf r cols) :=
          colsParts_ok r cols (hcols k cols hml)
        have hkne : ∀ n, (r.lookup n).isSome = true → n ≠ k := by
          intro n hn he
          rw [he, hl] at hn
          cases hn
        have hres : buildComposite pr r skip ((k, kr0) :: rest)
            = .ok ((k, Val.vList (keyPartsOf r cols)) :: comp) := by
          rw [buildComposite_cons, if_neg hs, hl, if_neg (by simp)]
          rcases him : pr.indexesMeta.lookup k with _ | cols1
          · have hu : pr.uniquesMeta.lookup k = some cols :=
              ((metaLookup_uniq him).symm.trans hml)
            dsimp only
            rw [hu]
            dsimp only
            rw [hcp]
            dsimp only
            rw [hc]
          · have hcc : cols1 = cols := by
              have h3 := metaLookup_idx him
              rw [hml] at h3
              injection h3 with h4
              exact h4.symm
            subst hcc
            dsimp only
            rw [hcp]
            dsimp only
            rw [hc]
        refine ⟨(k, Val.vList (keyPartsOf r cols)) :: comp, hres, ?_, ?_⟩
        · intro n hn
          rw [lookup_cons_ne n k _ comp (hkne n hn)]
          exact hf1 n hn
        · intro p hp hps hpl cols2 hml2
          rcases List.mem_cons.mp hp with rfl | hp2
          · rw [lookup_cons_self]
            rw [hml] at hml2
            injection hml2 with h5
            rw [h5]
          · rw [lookup_cons_ne _ _ _ _ (Ne.symm (hq p hp2))]
            exact hf2 p hp2 hps hpl cols2 hml2
      · refine ⟨comp, ?_, hf1, ?_⟩
        · rw [buildComposite_cons, if_neg hs, hl, if_pos (by simp : ((some v).isSome = true)), hc]
        · intro p hp hps hpl cols hml
          rcases List.mem_cons.mp hp with rfl | hp2
          · rw [hl] at hpl
            cases hpl
          · exact hf2 p hp2 hps hpl cols hml

theorem buildComposite_err (pr : Schema) (r : Row) (skip : String)
    (hcols : ∀ n cols, metaLookup pr n = some cols →
      ∀ c ∈ cols, (r.lookup c).isSome = true) :
    ∀ ranges : Ranges,
    (∃ p ∈ ranges, p.1 ≠ skip ∧ goodNameB pr r p.1 = false) →
    ∃ err, buildComposite pr r skip ranges = .error err := by
  intro ranges
  induction ranges with
  | nil =>
    rintro ⟨p, hp, _⟩
    exact absurd hp (List.not_mem_nil p)
  | cons q rest ih =>
    obtain ⟨k, kr0⟩ := q
    rintro ⟨p, hp, hps, hpbad⟩
    by_cases hs : k = skip
    · have hrest : ∃ p2 ∈ rest, p2.1 ≠ skip ∧ goodNameB pr r p2.1 = false := by
        rcases List.mem_cons.mp hp with rfl | hp2
        · exact absurd hs hps
        · exact ⟨p, hp2, hps, hpbad⟩
      obtain ⟨er, her⟩ := ih hrest
      exact ⟨er, by rw [buildComposite_cons, if_pos hs, her]⟩
    · rcases hl : r.lookup k with _ | v
      · rcases hml : metaLookup pr k with _ | cols
        · obtain ⟨hi, hu⟩ := metaLookup_none_parts hml
          refine ⟨.fieldNotFoundInColumns k, ?_⟩
          rw [buildComposite_cons, if_neg hs, hl, if_neg (by simp), hi]
          dsimp only
          rw [hu]
        · have hgk : goodNameB pr r k = true := by
            unfold goodNameB
            rw [hml]
            simp
          have hrest : ∃ p2 ∈ rest, p2.1 ≠ skip ∧ goodNameB pr r p2.1 = false := by
            rcases List.mem_cons.mp hp with rfl | hp2
            · rw [hpbad] at hgk
              cases hgk
            · exact ⟨p, hp2, hps, hpbad⟩
          obtain ⟨er, her⟩ := ih hrest
          have hcp : colsParts r cols = .ok (keyPartsOf r cols) :=
            colsParts_ok r cols (hcols k cols hml)
          rcases him : pr.indexesMeta.lookup k with _ | cols1
          · have hu : pr.uniquesMeta.lookup k = some cols :=
              ((metaLookup_uniq him).symm.trans hml)
            refine ⟨er, ?_⟩
            rw [buildComposite_cons, if_neg hs, hl, if_neg (by simp), him]
            dsimp only
            rw [hu]
            dsimp only
            rw [hcp]
            dsimp only
            rw [her]
          · have hcc : cols1 = cols := by
              have h3 := metaLookup_idx him
              rw [hml] at h3
              injection h3 with h4
              exact h4.symm
            subst hcc
            refine ⟨er, ?_⟩
            rw [buildComposite_cons, if_neg hs, hl, if_neg (by simp), him]
            dsimp only
            rw [hcp]
            dsimp only
            rw [her]
      · have hgk : goodNameB pr r k = true := by
          unfold goodNameB
          rw [hl]
          rfl
        have hrest : ∃ p2 ∈ rest, p2.1 ≠ skip ∧ goodNameB pr r p2.1 = false := by
          rcases List.mem_cons.mp hp with rfl | hp2
          · rw [hpbad] at hgk
            cases hgk
          · exact ⟨p, hp2, hps, hpbad⟩
        obtain ⟨er, her⟩ := ih hrest
        exact ⟨er, by rw [buildComposite_cons, if_neg hs, hl, if_pos (by simp : ((some v).isSome = true)), her]⟩

theorem matchLoop_cons (value : Row) (comp : List (String × Val)) (skip name : String)
    (rr : keyRange) (rest : Ranges) :
    matchLoop value comp skip ((name, rr) :: rest)
      = if name = skip then matchLoop value comp skip rest
        else
          match (comp.lookup name).orElse (fun _ => value.lookup name) with
          | none => .error (.fieldNotFoundInColumns name)
          | some v =>
            match Marshal v with
            | .error e => .error e
            | .ok vBytes =>
              if rr.contains vBytes then matchLoop value comp skip rest
              else .ok false := rfl

theorem matchLoop_ok (pr : Schema) (r : Row) (comp : List (String × Val)) (skip : String)
    (hf1 : ∀ n, (r.lookup n).isSome = true → comp.lookup n = none)
    (hmv : ∀ n v, r.lookup n = some v → Marshal v = .ok (fieldBytesD pr r n))
    (hmk : ∀ n, r.lookup n = none → ∀ cols, metaLookup pr n = some cols →
      Marshal (.vList (keyPartsOf r cols)) = .ok (fieldBytesD pr r n)) :
    ∀ ranges : Ranges,
    (∀ p ∈ ranges, p.1 = skip ∨ goodNameB pr r p.1 = true) →
    (∀ p ∈ ranges, p.1 ≠ skip → r.lookup p.1 = none →
      ∀ cols, metaLookup pr p.1 = some cols →
        comp.lookup p.1 = some (.vList (keyPartsOf r cols))) →
    matchLoop r comp skip ranges
      = .ok (ranges.all (fun p => p.1 == skip || p.2.contains (fieldBytesD pr r p.1))) := by
  intro ranges
  induction ranges with
  | nil =>
    intro _ _
    rfl
  | cons q rest ih =>
    obtain ⟨name, rr⟩ := q
    intro hgood hf2
    have ihr := ih (fun p hp => hgood p (List.mem_cons_of_mem _ hp))
      (fun p hp => hf2 p (List.mem_cons_of_mem _ hp))
    rw [matchLoop_cons, List.all_cons]
    by_cases hs : name = skip
    · have hb : (name == skip) = true := by simpa using hs
      rw [if_pos hs, ihr]
      simp [hb]
    · have hbf : (name == skip) = false := by simpa using hs
      rw [if_neg hs]
      rcases hl : r.lookup name with _ | v
      · have hgb : goodNameB pr r name = true := by
          rcases hgood (name, rr) (List.mem_cons_self _ _) with h1 | h1
          · exact absurd h1 hs
          · exact h1
        have hmls : (metaLookup pr name).isSome = true := by
          unfold goodNameB at hgb
          rw [hl] at hgb
          simpa using hgb
        rcases hml : metaLookup pr name with _ | cols
        · rw [hml] at hmls
          cases hmls
        have hcl : comp.lookup name = some (.vList (keyPartsOf r cols)) :=
          hf2 (name, rr) (List.mem_cons_self _ _) hs hl cols hml
        rw [hcl]
        dsimp only [Option.orElse]
        rw [hmk name hl cols hml]
        dsimp only
        by_cases hcont : rr.contains (fieldBytesD pr r name) = true
        · rw [if_pos hcont, ihr]
          simp [hbf, hcont]
        · have hc0 : rr.contains (fieldBytesD pr r name) = false := by
            rcases Bool.eq_false_or_eq_true (rr.contains (fieldBytesD pr r name)) with h | h
            · exact absurd h hcont
            · exact h
          rw [if_neg hcont]
          simp [hbf, hc0]
      · have hcln : comp.lookup name = none := hf1 name (by rw [hl]; rfl)
        rw [hcln]
        dsimp only [Option.orElse]
        rw [hmv name v hl]
        dsimp only
        by_cases hcont : rr.contains (fieldBytesD pr r name) = true
        · rw [if_pos hcont, ihr]
          simp [hbf, hcont]
        · have hc0 : rr.contains (fieldBytesD pr r name) = false := by
            rcases Bool.eq_false_or_eq_true (rr.contains (fieldBytesD pr r name)) with h | h
            · exact absurd h hcont
            · exact h
          rw [if_neg hcont]
          simp [hbf, hc0]

theorem matchOps_char (pr : Schema) (r : Row) (ranges : Ranges) (skip : String)
    (hrow : rowOk pr r = true)
    (hmetacols : ∀ n cols, metaLookup pr n = some cols → ∀ c ∈ cols, c ∈ pr.columns)
    (hnd : List.Pairwise (fun a b : String × keyRange => a.1 ≠ b.1) ranges)
    (hgood : ∀ p ∈ ranges, p.1 = skip ∨ goodNameB pr r p.1 = true) :
    matchOps pr r ranges skip
      = .ok (ranges.all (fun p => p.1 == skip || p.2.contains (fieldBytesD pr r p.1))) := by
  have hcols : ∀ n cols, metaLookup pr n = some cols →
      ∀ c ∈ cols, (r.lookup c).isSome = true := by
    intro n cols hml c hc
    obtain ⟨v, hv, _⟩ := rowOk_col_val pr r hrow c (hmetacols n cols hml c hc)
    rw [hv]
    rfl
  obtain ⟨comp, hbc, hf1, hf2⟩ := buildComposite_ok pr r skip hcols ranges hnd hgood
  have hmv : ∀ n v, r.lookup n = some v → Marshal v = .ok (fieldBytesD pr r n) := by
    intro n v hl
    obtain ⟨_, _, h3⟩ := rowOk_parts pr r hrow
    exact fieldBytes_val pr r n v hl (h3 (n, v) (lookup_mem hl))
  have hmk : ∀ n, r.lookup n = none → ∀ cols, metaLookup pr n = some cols →
      Marshal (.vList (keyPartsOf r cols)) = .ok (fieldBytesD pr r n) := by
    intro n hl cols hml
    rw [fieldBytes_comp pr r n cols hl hml]
    exact encKey_ok r cols (fun c hc =>
      rowOk_col_val pr r hrow c (hmetacols n cols hml c hc))
  unfold matchOps
  rw [hbc]
  exact matchLoop_ok pr r comp skip hf1 hmv hmk ranges hgood hf2

theorem matchOps_err (pr : Schema) (r : Row) (ranges : Ranges) (skip : String)
    (hcols : ∀ n cols, metaLookup pr n = some cols →
      ∀ c ∈ cols, (r.lookup c).isSome = true)
    (hbad : ∃ p ∈ ranges, p.1 ≠ skip ∧ goodNameB pr r p.1 = false) :
    ∃ err, matchOps pr r ranges skip = .error err := by
  obtain ⟨er, her⟩ := buildComposite_err pr r skip hcols ranges hbad
  refine ⟨er, ?_⟩
  unfold matchOps
  rw [her]

theorem all_skip_empty (ranges : Ranges) (fB : String → Bytes)
    (hne : ∀ p ∈ ranges, p.1 ≠ ("")) :
    ranges.all (fun p => p.1 == ("") || p.2.contains (fB p.1))
      = ranges.all (fun p => p.2.contains (fB p.1)) := by
  induction ranges with
  | nil => rfl
  | cons q rest ih =>
    rw [List.all_cons, List.all_cons, ih (fun p hp => hne p (List.mem_cons_of_mem q hp))]
    have hq : (q.1 == ("")) = false := by
      simpa using hne q (List.mem_cons_self _ _)
    rw [hq, Bool.false_or]

theorem all_contains_split (ranges : Ranges) (chosen : String) (rc : keyRange)
    (fB : String → Bytes)
    (hnd : List.Pairwise (fun a b : String × keyRange => a.1 ≠ b.1) ranges)
    (hmem : (chosen, rc) ∈ ranges) :
    (ranges.all (fun p => p.2.contains (fB p.1)) = true
      ↔ (rc.contains (fB chosen) = true ∧
         ranges.all (fun p => p.1 == chosen || p.2.contains (fB p.1)) = true)) := by
  rw [List.all_eq_true, List.all_eq_true]
  constructor
  · intro h
    refine ⟨h (chosen, rc) hmem, fun p hp => ?_⟩
    rw [Bool.or_eq_true]
    exact Or.inr (h p hp)
  · rintro ⟨hc, h⟩ p hp
    have hq := h p hp
    rw [Bool.or_eq_true] at hq
    rcases hq with h1 | h1
    · have hp1 : p.1 = chosen := by simpa using h1
      have hpe : p = (chosen, rc) :=
        pairwise_fst_inj (f := fun a : String × keyRange => a.1) hnd p hp (chosen, rc) hmem hp1
      rw [hpe]
      exact hc
    · exact h1

theorem fieldBytes_chosen (pr : Schema) (r : Row) (n : String) (cols : List String)
    (hwf : schemaWF pr = true) (hrow : rowOk pr r = true)
    (hml : metaLookup pr n = some cols) :
    fieldBytesD pr r n = encKeyD cols r := by
  rcases hl : r.lookup n with _ | v
  · exact fieldBytes_comp pr r n cols hl hml
  · obtain ⟨_, h2, h3⟩ := rowOk_parts pr r hrow
    have hnc : n ∈ pr.columns := h2 (n, v) (lookup_mem hl)
    have hcols1 : cols = [n] :=
      (schemaWF_parts pr hwf).2.1 (n, cols) (metaLookup_mem hml) hnc
    subst hcols1
    have hok : isOkB (encScalar v) = true := h3 (n, v) (lookup_mem hl)
    rcases he : encScalar v with e | b
    · rw [he] at hok
      cases hok
    · have h5 : fieldBytesD pr r n = b := by
        unfold fieldBytesD
        rw [hl]
        dsimp only
        rw [marshal_scalar_ok v hok, he]
      have hm : Marshal (.vList (keyPartsOf r [n])) = .ok b := by
        have hkp : keyPartsOf r [n] = [v] := by
          unfold keyPartsOf
          rw [List.map_cons, List.map_nil, hl]
          rfl
        rw [hkp]
        show (List.mapM encScalar [v]).map List.flatten = .ok b
        rw [List.mapM_cons, he]
        simp [List.mapM.loop, Except.map]
      have h6 : encKeyD [n] r = b := by
        unfold encKeyD
        rw [hm]
      rw [h5, h6]

theorem bucketOk_parts (dataB : List (Bytes × Row)) (st : RelState)
    (m : String × List String) (h : bucketOk dataB st m = true) :
    ∃ bucket, st.indexB.lookup m.1 = some bucket ∧ pairSorted bucket ∧
      (∀ p ∈ bucket, ∃ e ∈ dataB, p.1 = encKeyD m.2 e.2 ∧ p.2 = e.1) ∧
      (∀ e ∈ dataB, (encKeyD m.2 e.2, e.1) ∈ bucket) := by
  unfold bucketOk at h
  rcases hbk : st.indexB.lookup m.1 with _ | bucket
  · rw [hbk] at h
    cases h
  · rw [hbk] at h
    rw [Bool.and_eq_true, Bool.and_eq_true] at h
    obtain ⟨⟨h1, h2⟩, h3⟩ := h
    refine ⟨bucket, rfl, (pairwiseB_iff _ _).mp h1, ?_, ?_⟩
    · intro p hp
      obtain ⟨e, he, hpe⟩ := List.any_eq_true.mp (List.all_eq_true.mp h2 p hp)
      rw [Bool.and_eq_true] at hpe
      exact ⟨e, he, by simpa using hpe.1, by simpa using hpe.2⟩
    · intro e he
      exact of_decide_eq_true (List.all_eq_true.mp h3 e he)

theorem stateOk_parts (pr : Schema) (st : RelState) (h : stateOk pr st = true) :
    dataSorted st.dataB ∧ (∀ e ∈ st.dataB, rowOk pr e.2 = true) ∧
    (∀ m ∈ pr.indexesMeta ++ pr.uniquesMeta, bucketOk st.dataB st m = true) := by
  unfold stateOk at h
  rw [Bool.and_eq_true, Bool.and_eq_true] at h
  obtain ⟨⟨h1, h2⟩, h3⟩ := h
  exact ⟨(pairwiseB_iff _ _).mp h1,
    fun e he => List.all_eq_true.mp h2 e he,
    fun m hm => List.all_eq_true.mp h3 m hm⟩

/-- The residual-filter bridge: on a well-formed row, with range names drawn
from non-empty fields and the chosen index among them, passing `matchOps` with
no skip is the same as lying in the chosen range and passing `matchOps` with
the chosen index skipped. -/
theorem matchOps_skip_bridge (pr : Schema) (r : Row) (ranges : Ranges)
    (chosen : String) (rc : keyRange) (cols : List String)
    (hwf : schemaWF pr = true) (hrow : rowOk pr r = true)
    (hnd : List.Pairwise (fun a b : String × keyRange => a.1 ≠ b.1) ranges)
    (hnames : ∀ p ∈ ranges, p.1 ≠ (""))
    (hrcm : (chosen, rc) ∈ ranges)
    (hml : metaLookup pr chosen = some cols) :
    (matchOps pr r ranges ("") = .ok true) ↔
      (rc.contains (encKeyD cols r) = true ∧
       matchOps pr r ranges chosen = .ok true) := by
  have hmetacols : ∀ n cols2, metaLookup pr n = some cols2 →
      ∀ c2 ∈ cols2, c2 ∈ pr.columns :=
    fun n cols2 h c2 hc2 =>
      (schemaWF_parts pr hwf).1 (n, cols2) (metaLookup_mem h) c2 hc2
  by_cases hgood : ∀ p ∈ ranges, goodNameB pr r p.1 = true
  · have hch1 := matchOps_char pr r ranges ("") hrow hmetacols hnd
      (fun p hp => Or.inr (hgood p hp))
    have hch2 := matchOps_char pr r ranges chosen hrow hmetacols hnd
      (fun p hp => Or.inr (hgood p hp))
    rw [hch1, hch2]
    have hskip := all_skip_empty ranges (fun n => fieldBytesD pr r n) hnames
    have hfb := fieldBytes_chosen pr r chosen cols hwf hrow hml
    constructor
    · intro h
      have h2 : ranges.all
          (fun p => p.2.contains (fieldBytesD pr r p.1)) = true := by
        rw [← hskip]
        injection h
      obtain ⟨ha, hb⟩ :=
        (all_contains_split ranges chosen rc (fun n => fieldBytesD pr r n) hnd hrcm).mp h2
      rw [hfb] at ha
      exact ⟨ha, congrArg Except.ok hb⟩
    · rintro ⟨ha, hb⟩
      have hb2 : ranges.all
          (fun p => p.1 == chosen || p.2.contains (fieldBytesD pr r p.1)) = true := by
        injection hb
      rw [← hfb] at ha
      have h2 :=
        (all_contains_split ranges chosen rc (fun n => fieldBytesD pr r n) hnd hrcm).mpr
          ⟨ha, hb2⟩
      rw [← hskip] at h2
      exact congrArg Except.ok h2
  · have hbad : ∃ p ∈ ranges, goodNameB pr r p.1 = false := by
      by_contra hno
      apply hgood
      intro p hp
      rcases Bool.eq_false_or_eq_true (goodNameB pr r p.1) with h | h
      · exact h
      · exact absurd ⟨p, hp, h⟩ hno
    obtain ⟨p, hp, hpb⟩ := hbad
    have hp1 : p.1 ≠ ("") := hnames p hp
    have hpch : p.1 ≠ chosen := by
      intro hq
      rw [hq] at hpb
      unfold goodNameB at hpb
      rw [hml] at hpb
      simp at hpb
    have hcols2 : ∀ n cols2, metaLookup pr n = some cols2 →
        ∀ c2 ∈ cols2, (r.lookup c2).isSome = true := by
      intro n cols2 h c2 hc2
      obtain ⟨v, hv, _⟩ := rowOk_col_val pr r hrow c2 (hmetacols n cols2 h c2 hc2)
      rw [hv]
      rfl
    obtain ⟨e1, he1⟩ := matchOps_err pr r ranges ("") hcols2 ⟨p, hp, hp1, hpb⟩
    obtain ⟨e2, he2⟩ := matchOps_err pr r ranges chosen hcols2 ⟨p, hp, hpch, hpb⟩
    rw [he1, he2]
    constructor
    · intro h
      exact absurd h (by simp)
    · rintro ⟨_, h⟩
      exact absurd h (by simp)

/-- C1 amended: when every predicate names a non-empty field, on a well-formed
schema and state `Select` yields exactly the rows of the full-scan reference
semantics — on the no-index path trivially, and on the index path because the
chosen range re-tested against the stored composite key plus the residual
`matchOps` (chosen index skipped) is the full residual filter. -/
theorem c1_planner_equivalence (dist : keyRange → Bytes) (pr : Schema)
    (st : RelState) (ops : List Op)
    (hwf : schemaWF pr = true) (hst : stateOk pr st = true)
    (hne : ∀ o ∈ ops, o.field ≠ ("")) (row : Row) :
    row ∈ okRows (Select dist pr st ops) ↔ row ∈ okRows (fullScanSelect pr st ops) := by
  rcases htr : toRanges ops with e | ranges
  · have h1 : Select dist pr st ops = .error e := by
      unfold Select iter
      rw [htr]
    have h2 : fullScanSelect pr st ops = .error e := by
      unfold fullScanSelect
      rw [htr]
    rw [h1, h2]
  · have hnames : ∀ p ∈ ranges, p.1 ≠ ("") := by
      intro p hp
      obtain ⟨o, ho, hpo⟩ := toRanges_names htr p hp
      rw [hpo]
      exact hne o ho
    have hnd := toRanges_nodup htr
    obtain ⟨hds, hrows, hbuckets⟩ := stateOk_parts pr st hst
    have hfull : okRows (fullScanSelect pr st ops)
        = (scanFilter pr ranges ("") st.dataB).filterMap okE := by
      rw [okRows_fullScan pr st ops ranges htr, dataGet_fullRange]
    rcases hsel : selectedIdxs pr ranges with _ | ⟨c, rest⟩
    · have hiter : iter dist pr st ops
          = .ok (scanFilter pr ranges ("") (dataGet fullRange st.dataB)) := by
        unfold iter
        rw [htr]
        dsimp only
        rw [hsel]
      rw [okRows_select dist pr st ops _ hiter, hfull, dataGet_fullRange]
    · have hcm : chooseIdx dist ranges c rest = c ∨ chooseIdx dist ranges c rest ∈ rest :=
        minFunc_mem (fun a => dist ((ranges.lookup a).getD {})) rest c
      have hcsel : chooseIdx dist ranges c rest
          ∈ pr.allIndexes.filter (fun n => (ranges.lookup n).isSome) := by
        have hcsel0 : chooseIdx dist ranges c rest ∈ selectedIdxs pr ranges := by
          rw [hsel]
          rcases hcm with h | h
          · rw [h]
            exact List.mem_cons_self _ _
          · exact List.mem_cons_of_mem c h
        exact hcsel0
      obtain ⟨hall, hlks0⟩ := List.mem_filter.mp hcsel
      have hlks : (ranges.lookup (chooseIdx dist ranges c rest)).isSome = true := hlks0
      rcases hrc : ranges.lookup (chooseIdx dist ranges c rest) with _ | rc
      · rw [hrc] at hlks
        cases hlks
      have hrcm : (chooseIdx dist ranges c rest, rc) ∈ ranges := lookup_mem hrc
      have hmls : (metaLookup pr (chooseIdx dist ranges c rest)).isSome = true :=
        (schemaWF_parts pr hwf).2.2 _ hall
      rcases hml : metaLookup pr (chooseIdx dist ranges c rest) with _ | cols
      · rw [hml] at hmls
        cases hmls
      obtain ⟨bucket, hbk, hbs, hbf, hbb⟩ :=
        bucketOk_parts st.dataB st (chooseIdx dist ranges c rest, cols)
          (hbuckets _ (metaLookup_mem hml))
      have hidx : idxGet st (chooseIdx dist ranges c rest) rc
          = .ok ((bucket.filter (fun p => rc.contains p.1)).map (fun p => p.2)) :=
        idxGet_eq_filter st _ rc bucket hbk hbs
      have hiter : iter dist pr st ops = .ok (indexPath pr st ranges
          (chooseIdx dist ranges c rest)
          ((bucket.filter (fun p => rc.contains p.1)).map (fun p => p.2))) := by
        unfold iter
        rw [htr]
        dsimp only
        rw [hsel]
        dsimp only
        rw [hrc]
        dsimp only [Option.getD]
        rw [hidx]
      rw [okRows_select dist pr st ops _ hiter, hfull,
        mem_indexPath_ok, mem_scanFilter_ok]
      constructor
      · rintro ⟨id, hid, e, he, hm, hrow2⟩
        rcases List.mem_map.mp hid with ⟨p, hpf, hpid⟩
        rcases List.mem_filter.mp hpf with ⟨hpb, hpc0⟩
        have hpc : rc.contains p.1 = true := hpc0
        obtain ⟨e2, he2, hpk, hpid2⟩ := hbf p hpb
        rcases (mem_dataGet_single id st.dataB hds e).mp he with ⟨heb, heid⟩
        have hee : e = e2 :=
          dataB_key_inj hds e heb e2 he2 (by rw [heid, ← hpid, hpid2])
        refine ⟨e, heb, ?_, hrow2⟩
        have hcont : rc.contains (encKeyD cols e.2) = true := by
          rw [← hee] at hpk
          rw [hpk] at hpc
          exact hpc
        exact (matchOps_skip_bridge pr e.2 ranges _ rc cols hwf (hrows e heb)
          hnd hnames hrcm hml).mpr ⟨hcont, hm⟩
      · rintro ⟨e, he, hm, hrow2⟩
        obtain ⟨hcont, hmch⟩ :=
          (matchOps_skip_bridge pr e.2 ranges _ rc cols hwf (hrows e he)
            hnd hnames hrcm hml).mp hm
        refine ⟨e.1, ?_, e, ?_, hmch, hrow2⟩
        · exact List.mem_map.mpr ⟨(encKeyD cols e.2, e.1),
            List.mem_filter.mpr ⟨hbb e he, hcont⟩, rfl⟩
        · exact (mem_dataGet_single e.1 st.dataB hds e).mpr ⟨he, rfl⟩

/-- Relation `t(a)` with a single declared (non-unique) index on `a`. -/
def prC : Schema := ⟨[("a")], [(("a"), [("a")])], [], [("a")], ("t")⟩

/-- The indexed relation after inserting the single row `a = 1`. -/
def stC : RelState := (Insert prC (initState prC) [(("a"), .vInt 1)]).2

/-- Predicates naming the empty-string field alongside the indexed one; the
empty string collides with the no-skip sentinel of `matchOps`. -/
def opsC : List Op := [Op.ne ("") (.vInt 0), Op.eq ("a") (.vInt 1)]

/-- The C1 claim as stated: on a well-formed relation and state, whenever the
compiled ranges mention a declared index (so the planner chooses an index
scan), `Select` yields the same row set as a full scan with every range
applied as a residual filter via `matchOps`. -/
def C1ClaimStatement : Prop :=
  ∀ (dist : keyRange → Bytes) (pr : Schema) (st : RelState) (ops : List Op)
    (ranges : Ranges),
    schemaWF pr = true → stateOk pr st = true →
    toRanges ops = .ok ranges → selectedIdxs pr ranges ≠ [] →
    ∀ row, row ∈ okRows (Select dist pr st ops) ↔ row ∈ okRows (fullScanSelect pr st ops)

/-- C1 counterexample: a predicate on a field named by the empty string.  On
the planner's index path `matchOps` skips the chosen index by name, and the
no-skip sentinel is the empty string itself, so the full scan silently skips
the empty-named range while the index path fails on it: the full scan yields
the row `a = 1`, the planner path yields no row. -/
theorem c1_counterexample : ¬ C1ClaimStatement := by
  intro h
  have h2 := h distZero prC stC opsC
    [(("") , ⟨none, none, false, false⟩),
     (("a"), ⟨some [0x31, 1, 1], some [0x31, 1, 1], true, true⟩)]
    rfl rfl rfl (by decide) [(("a"), Val.vInt 1)]
  have hmem : [(("a"), Val.vInt 1)] ∈ okRows (fullScanSelect prC stC opsC) := by
    rw [show okRows (fullScanSelect prC stC opsC) = [[(("a"), Val.vInt 1)]] from rfl]
    exact List.mem_cons_self _ _
  have h3 := h2.mpr hmem
  rw [show okRows (Select distZero prC stC opsC) = [] from rfl] at h3
  exact absurd h3 (List.not_mem_nil _)

/-- Witness for C1 amended: the indexed relation `t(a)` holding `a = 1`,
queried with `Eq(a, 1)`: the planner's index path agrees with the full-scan
reference on the yielded row. -/
theorem c1_planner_equivalence_witness :
    schemaWF prC = true ∧ stateOk prC stC = true ∧
    ([(("a"), Val.vInt 1)] ∈ okRows (Select distZero prC stC [Op.eq ("a") (.vInt 1)]) ↔
      [(("a"), Val.vInt 1)] ∈ okRows (fullScanSelect prC stC [Op.eq ("a") (.vInt 1)])) :=
  ⟨rfl, rfl,
    c1_planner_equivalence distZero prC stC [Op.eq ("a") (.vInt 1)] rfl rfl
      (by decide) [(("a"), Val.vInt 1)]⟩

end Thunder
